import Mathlib

/-!
RocksDBStorage (src/storage/rocksdb.h): a shallow embedding.

The storage engine of the tree index is embedded as pure functions over an
explicit state.  Machine integers of the template type `S` are natural numbers
standing for bit patterns of `sizeof(S)` bytes (two's complement when `S` is
signed); buffers, keys and records are lists of bytes.
-/

namespace Annoy

/-! ## Machine model -/

/-- A buffer of bytes: keys, values, node records, memory images. -/
abbrev Bytes := List Nat

/-- Template parameters and platform facts the class is instantiated with:
`ssz = sizeof(S)`, whether `S` is a signed type, `tsz = sizeof(T)`,
`co = offsetof(Node, children)`, `vo = offsetof(Node, v)`, the constructor
argument `f`, and the byte order of the host. -/
structure Cfg where
  ssz : Nat
  signed : Bool
  tsz : Nat
  co : Nat
  vo : Nat
  f : Nat
  bigEndianHost : Bool
deriving DecidableEq, Repr

/-- Number of bit patterns of the type `S`. -/
def Cfg.card (c : Cfg) : Nat := 256 ^ c.ssz

/-- The value `std::numeric_limits<S>::max()`. -/
def Cfg.maxS (c : Cfg) : Nat :=
  if c.signed then c.card / 2 - 1 else c.card - 1

/-- The number a bit pattern of `S` denotes. -/
def Cfg.toInt (c : Cfg) (u : Nat) : Int :=
  if c.signed = true ∧ c.card / 2 ≤ u then (u : Int) - (c.card : Int) else (u : Int)

/-- The comparison `a < b` on values of type `S`. -/
def Cfg.slt (c : Cfg) (a b : Nat) : Bool := decide (c.toInt a < c.toInt b)

/-- The comparison `a >= b` on values of type `S`. -/
def Cfg.sge (c : Cfg) (a b : Nat) : Bool := decide (c.toInt b ≤ c.toInt a)

/-- The function `std::max(a, b)` on values of type `S`: `(a < b) ? b : a`. -/
def Cfg.smax (c : Cfg) (a b : Nat) : Nat := if c.slt a b then b else a

/-- The `w` low-order bytes of `u`, least significant first. -/
def toBytesLE : Nat → Nat → Bytes
  | 0, _ => []
  | w + 1, u => u % 256 :: toBytesLE w (u / 256)

/-- The number whose little-endian bytes are the given ones. -/
def fromBytesLE : Bytes → Nat
  | [] => 0
  | b :: bs => b + 256 * fromBytesLE bs

/-- Memory image of a `w`-byte integer on the host. -/
def memImage (bigEndian : Bool) (w u : Nat) : Bytes :=
  if bigEndian then (toBytesLE w u).reverse else toBytesLE w u

/-- The integer a memory image holds on the host. -/
def fromImage (bigEndian : Bool) (bs : Bytes) : Nat :=
  if bigEndian then fromBytesLE bs.reverse else fromBytesLE bs

/-- Memory image of a value of type `S`. -/
def Cfg.imageS (c : Cfg) (u : Nat) : Bytes := memImage c.bigEndianHost c.ssz u

/-- The access `*(S *) p` on a buffer: the first `sizeof(S)` bytes as an `S`. -/
def Cfg.loadS (c : Cfg) (buf : Bytes) : Nat := fromImage c.bigEndianHost (buf.take c.ssz)

/-- Memory image of a value of type `T`. -/
def Cfg.imageT (c : Cfg) (x : Nat) : Bytes := memImage c.bigEndianHost c.tsz x

/-- The function `_swap_endian`: `dest.u8[k] = source.u8[sizeof(S) - k - 1]`
for `k = 0 .. sizeof(S) - 1`, through the union of `S` with its bytes. -/
def _swap_endian (c : Cfg) (u : Nat) : Nat :=
  let source := c.imageS u
  let dest := (List.range c.ssz).map (fun k => source.getD (c.ssz - k - 1) 0)
  fromImage c.bigEndianHost dest

/-- The key handed to the store for an id:
`Slice((const char *)&be, sizeof(S))` with `be = _swap_endian(id)`. -/
def keyBytes (c : Cfg) (id : Nat) : Bytes := c.imageS (_swap_endian c id)

/-- Modelled from the spec: the store's key order, "keys sort by byte-wise
lexicographic order" (section 6); the comparator itself belongs to the
key-value store library. -/
def bytesLt : Bytes → Bytes → Bool
  | [], [] => false
  | [], _ :: _ => true
  | _ :: _, [] => false
  | a :: as, b :: bs => decide (a < b) || (decide (a = b) && bytesLt as bs)

/-! ## The key-value store -/

/-- Modelled from the spec: a keyspace of the underlying ordered key-value
store (section 6, "Underlying store contract"); the store library is not part
of the sources.  A keyspace holds its entries in ascending key order. -/
abbrev Keyspace := List (Bytes × Bytes)

/-- Modelled from the spec: `put(keyspace, key, value)` of the store contract;
an existing entry with the same key is replaced. -/
def ksPut : Keyspace → Bytes → Bytes → Keyspace
  | [], k, v => [(k, v)]
  | (k', v') :: rest, k, v =>
    if k = k' then (k, v) :: rest
    else if bytesLt k k' then (k, v) :: (k', v') :: rest
    else (k', v') :: ksPut rest k v

/-- Modelled from the spec: `get(keyspace, key) -> value` of the store
contract. -/
def ksGet : Keyspace → Bytes → Option Bytes
  | [], _ => none
  | (k', v') :: rest, k => if k = k' then some v' else ksGet rest k

/-- The three column family handles `_hd_r`, `_hd_t`, `_hd_i`. -/
inductive Handle where
  | r
  | t
  | i
deriving DecidableEq, Repr

/-- The database `_db`: roots, tree nodes, items. -/
structure DB where
  roots : Keyspace
  tree : Keyspace
  items : Keyspace
deriving DecidableEq, Repr

/-- A database that was just created. -/
def DB.empty : DB := ⟨[], [], []⟩

/-- The keyspace behind a handle. -/
def DB.cf (db : DB) : Handle → Keyspace
  | .r => db.roots
  | .t => db.tree
  | .i => db.items

/-- Replace the keyspace behind a handle. -/
def DB.setCf (db : DB) (hd : Handle) (ks : Keyspace) : DB :=
  match hd with
  | .r => { db with roots := ks }
  | .t => { db with tree := ks }
  | .i => { db with items := ks }

/-- Outcome of a store call, the `rocksdb::Status` it returns. -/
inductive Status where
  | ok
  | notFound
deriving DecidableEq, Repr

/-- The call `_db->Put(_wo, hd, key, value)`. -/
def DB.Put (db : DB) (hd : Handle) (key value : Bytes) : DB :=
  db.setCf hd (ksPut (db.cf hd) key value)

/-- The call `_db->Get(_ro, hd, key, &node)` on an empty `std::string node`:
the status and the string afterwards (left empty when the key is absent). -/
def DB.Get (db : DB) (hd : Handle) (key : Bytes) : Status × Bytes :=
  match ksGet (db.cf hd) key with
  | some v => (Status.ok, v)
  | none => (Status.notFound, [])

/-- Modelled from the spec: `drop_and_recreate(keyspace)` of the store
contract, which `_db->DropColumnFamily(hd)` stands for ("drops the existing
keyspace wholesale"). -/
def DB.DropColumnFamily (db : DB) (hd : Handle) : DB := db.setCf hd []

/-- An iterator positioned by `SeekToLast()`: the entry it points at, if
`Valid()`. -/
def DB.SeekToLast (db : DB) (hd : Handle) : Option (Bytes × Bytes) := (db.cf hd).getLast?

/-! ## Buffers and the node record -/

/-- Overwrite the bytes of `buf` from offset `off` on with `bs`. -/
def writeAt (buf : Bytes) (off : Nat) (bs : Bytes) : Bytes :=
  buf.take off ++ bs ++ buf.drop (off + bs.length)

/-- The `n` bytes of `buf` from offset `off` on. -/
def readAt (buf : Bytes) (off n : Nat) : Bytes := (buf.drop off).take n

/-- Reading `n` bytes through `node.c_str()`: the characters of the string and
its terminating NUL. A read that goes past the NUL leaves the buffer of the
string, which is undefined behaviour in the source; `oob` only stands for the
bytes such a read would find if it returns, and no result below depends on
it. -/
def cRead (node : Bytes) (oob : Nat → Nat) (n : Nat) : Bytes :=
  (node ++ 0 :: (List.range n).map oob).take n

/-- The constant `_tree_node_id_base`: `std::numeric_limits<S>::max() / 2`. -/
def Cfg.base (c : Cfg) : Nat := c.maxS / 2

/-- The member `_s`: `offsetof(Node, v) + f * sizeof(T)`. -/
def Cfg.s (c : Cfg) : Nat := c.vo + c.f * c.tsz

/-- The member `_K`: `(_s - offsetof(Node, children)) / sizeof(S)`, held in
an `S`. -/
def Cfg.K (c : Cfg) : Nat := ((c.s - c.co) / c.ssz) % c.card

/-- The field `n_descendants` of a record (the first field of `Node`). -/
def Cfg.n_descendants (c : Cfg) (n : Bytes) : Nat := c.loadS n

/-- The slot `children[k]` of a record. -/
def Cfg.child (c : Cfg) (n : Bytes) (k : Nat) : Nat := c.loadS (n.drop (c.co + k * c.ssz))

/-- The `f` components found in a buffer of `f * sizeof(T)` bytes. -/
def Cfg.vecOf (c : Cfg) (buf : Bytes) : List Nat :=
  (List.range c.f).map (fun z => fromImage c.bigEndianHost (readAt buf (z * c.tsz) c.tsz))

/-- Layout facts of the `Node` struct: `n_descendants` is its first field, an
`S`; `children` is an array of two `S` placed after it; `v` comes after
`children`. -/
def Cfg.WF (c : Cfg) : Prop := 0 < c.ssz ∧ c.ssz ≤ c.co ∧ c.co + 2 * c.ssz ≤ c.vo

instance (c : Cfg) : Decidable c.WF := by
  unfold Cfg.WF
  infer_instance

/-! ## The storage engine -/

/-- The mutable members of a `RocksDBStorage` object. -/
structure Storage where
  db : DB
  atomic_tree_node_id : Nat
deriving DecidableEq, Repr

/-- The method `_get_last_key`. -/
def _get_last_key (c : Cfg) (db : DB) (hd : Handle) : Nat :=
  match db.SeekToLast hd with
  | some kv => _swap_endian c (c.loadS kv.1)
  | none => 0

/-- The constructor, opening the database `db` found under `name`. -/
def RocksDBStorage (c : Cfg) (db : DB) : Storage :=
  { db := db, atomic_tree_node_id := c.smax c.base (_get_last_key c db Handle.t) }

/-- The destructor (`unload`): what stays on disk. -/
def unload (st : Storage) : DB := st.db

/-- The node `add_item` fills in before writing it: `raw` is the content of
the block `alloc_node` returns, `v` the array the caller points at. -/
def itemRecord (c : Cfg) (raw : Bytes) (v : List Nat) : Bytes :=
  let n := writeAt raw c.co (c.imageS 0)
  let n := writeAt n (c.co + c.ssz) (c.imageS 0)
  let n := writeAt n 0 (c.imageS 1)
  (List.range c.f).foldl (fun n z => writeAt n (c.vo + z * c.tsz) (c.imageT (v.getD z 0))) n

/-- The method `add_item`. -/
def add_item (c : Cfg) (st : Storage) (raw : Bytes) (item : Nat) (v : List Nat) : Storage :=
  if c.sge item c.base then st
  else
    let n := itemRecord c raw v
    let item := _swap_endian c item
    let db := st.db.Put Handle.i (c.imageS item) (n.take c.s)
    { st with db := db }

/-- The method `is_mutable`. -/
def is_mutable : Bool := true

/-- The method `append_node(const Node *)`: the id returned and the state
afterwards. -/
def append_node (c : Cfg) (st : Storage) (node : Bytes) : Nat × Storage :=
  let tree_node_id := st.atomic_tree_node_id
  let tree_node_id_be := _swap_endian c tree_node_id
  (tree_node_id,
   { db := st.db.Put Handle.t (c.imageS tree_node_id_be) (node.take c.s),
     atomic_tree_node_id := (st.atomic_tree_node_id + 1) % c.card })

/-- The node `append_node(const vector<S> &)` fills in: `raw` is the content
of the block `alloc_node` returns. -/
def indicesRecord (c : Cfg) (raw : Bytes) (indices : List Nat) : Bytes :=
  let m := writeAt raw 0 (c.imageS (indices.length % c.card))
  writeAt m c.co (indices.map c.imageS).flatten

/-- The method `append_node(const vector<S> &)`. -/
def append_node_indices (c : Cfg) (st : Storage) (raw : Bytes) (indices : List Nat) :
    Nat × Storage :=
  append_node c st (indicesRecord c raw indices)

/-- The method `set_roots`. -/
def set_roots (c : Cfg) (st : Storage) (roots : List Nat) : Storage :=
  let db := st.db.DropColumnFamily Handle.r
  let db := (List.range roots.length).foldl
    (fun db i => db.Put Handle.r (keyBytes c (i % c.card)) (c.imageS (roots.getD i 0))) db
  { st with db := db }

/-- The method `load`: its return value and the vector `roots` afterwards.
The iterator walks the root keyspace from `SeekToFirst()` by `Next()`. -/
def load (c : Cfg) (st : Storage) : Bool × List Nat :=
  (true, (st.db.cf Handle.r).map (fun kv => c.loadS kv.2))

/-- The method `ref_node`: the record in the block it returns. -/
def ref_node (c : Cfg) (st : Storage) (oob : Nat → Nat) (i : Nat) : Bytes :=
  let hd := if c.sge i c.base then Handle.t else Handle.i
  let i := _swap_endian c i
  let node := (st.db.Get hd (c.imageS i)).2
  cRead node oob c.s

/-- The method `get_item`: the array `v` afterwards. -/
def get_item (c : Cfg) (st : Storage) (oob : Nat → Nat) (item : Nat) : List Nat :=
  let item := _swap_endian c item
  let node := (st.db.Get Handle.i (c.imageS item)).2
  c.vecOf (readAt (cRead node oob (c.vo + c.f * c.tsz)) c.vo (c.f * c.tsz))

/-- The method `get_n_items`. -/
def get_n_items (c : Cfg) (st : Storage) : Nat :=
  (_get_last_key c st.db Handle.i + 1) % c.card

/-- The method `get_n_nodes`. -/
def get_n_nodes (c : Cfg) (st : Storage) : Nat :=
  (get_n_items c st + st.atomic_tree_node_id + c.card - c.base) % c.card

/-- The method `max_descendants`. -/
def max_descendants (c : Cfg) : Nat := c.K

/-! ## Sessions -/

/-- A mutating call of the storage contract, with its arguments. -/
inductive Op where
  | add_item (raw : Bytes) (item : Nat) (v : List Nat)
  | append_node (node : Bytes)
  | append_node_indices (raw : Bytes) (indices : List Nat)
  | set_roots (roots : List Nat)
deriving DecidableEq, Repr

/-- One call: the node id it returns, if it returns one, and the state
afterwards. -/
def step (c : Cfg) (st : Storage) : Op → Option Nat × Storage
  | Op.add_item raw item v => (none, add_item c st raw item v)
  | Op.append_node node => ((append_node c st node).1, (append_node c st node).2)
  | Op.append_node_indices raw indices =>
    ((append_node_indices c st raw indices).1, (append_node_indices c st raw indices).2)
  | Op.set_roots roots => (none, set_roots c st roots)

/-- A sequence of calls: the node ids returned, in call order, and the final
state. -/
def run (c : Cfg) : Storage → List Op → List Nat × Storage
  | st, [] => ([], st)
  | st, op :: ops =>
    let r := step c st op
    let rest := run c r.2 ops
    (r.1.toList ++ rest.1, rest.2)

/-- Instantiation `S = int32_t`, `T = float`, the three-field `Node`
(`n_descendants`, `children[2]`, `v`), little-endian host. -/
def cfg32 (f : Nat) : Cfg :=
  { ssz := 4, signed := true, tsz := 4, co := 4, vo := 12, f := f, bigEndianHost := false }

/-- Instantiation `S = uint64_t`, `T = double`, little-endian host. -/
def cfg64 (f : Nat) : Cfg :=
  { ssz := 8, signed := false, tsz := 8, co := 8, vo := 24, f := f, bigEndianHost := false }

/-- Number of `append_node` calls (either form) in a sequence of calls. -/
def countAppends : List Op → Nat
  | [] => 0
  | Op.append_node _ :: ops => countAppends ops + 1
  | Op.append_node_indices _ _ :: ops => countAppends ops + 1
  | _ :: ops => countAppends ops

/-- The ids of the items a sequence of calls stores: those handed to
`add_item` that are below the midpoint. -/
def addedItemIds (c : Cfg) : List Op → List Nat
  | [] => []
  | Op.add_item _ item _ :: ops =>
    if item < c.base then item :: addedItemIds c ops else addedItemIds c ops
  | _ :: ops => addedItemIds c ops

/-- Whether every id handed to `add_item` is a non-negative value of `S`. -/
def itemIdsValid (c : Cfg) : List Op → Bool
  | [] => true
  | Op.add_item _ item _ :: ops => decide (item ≤ c.maxS) && itemIdsValid c ops
  | _ :: ops => itemIdsValid c ops

/-- The state an item keyspace is kept in with respect to the list `ids` of
item ids written so far: entries in strictly ascending key order, and the keys
present are exactly the keys of the ids, all of them below the midpoint. -/
def ItemsInv (c : Cfg) (ks : Keyspace) (ids : List Nat) : Prop :=
  ks.Pairwise (fun a b => bytesLt a.1 b.1 = true) ∧
  (∀ e ∈ ks, ∃ i ∈ ids, e.1 = keyBytes c i) ∧
  (∀ i ∈ ids, ∃ e ∈ ks, e.1 = keyBytes c i) ∧
  (∀ i ∈ ids, i < c.base)

/-- Whether every id handed to `add_item` is a value of the type `S`. -/
def itemIdsTyped (c : Cfg) : List Op → Bool
  | [] => true
  | Op.add_item _ item _ :: ops => decide (item < c.card) && itemIdsTyped c ops
  | _ :: ops => itemIdsTyped c ops

/-- Sessions one after the other on the same database: each is opened by the
constructor, runs its calls and is closed by the destructor. -/
def runSessions (c : Cfg) : DB → List (List Op) → DB
  | db, [] => db
  | db, ops :: rest => runSessions c (unload (run c (RocksDBStorage c db) ops).2) rest

/-- Every key of the keyspace decodes to an id that is below the midpoint as a
value of `S`. -/
def ItemKeysBelow (c : Cfg) (ks : Keyspace) : Prop :=
  ∀ e ∈ ks, c.slt (_swap_endian c (c.loadS e.1)) c.base = true

/-- The byte of weight `256 ^ (w - 1 - k)` of `u`: the `k`-th most
significant byte of a `w`-byte integer, counted from 0. -/
def msByte (w u k : Nat) : Nat := (u / 256 ^ (w - 1 - k)) % 256

/-- A big-endian host with `S = int32_t`, `T = float`. -/
def cfg32be (f : Nat) : Cfg := { cfg32 f with bigEndianHost := true }

/-! ## The storage classes of experimental/annoylib.h -/

/-- The members of the base class `AnnoyIndex<S, T, Distance, NullRandom>`
that the storage classes forward to; the class is declared in `annoylib.h`,
so its members are parameters here. `σ` is the state of the base object. -/
structure AnnoyIndexBase (σ : Type) where
  add_item : σ → Nat → List Nat → σ
  get_item : σ → Nat → List Nat
  get_n_items : σ → Nat

/-- The method `MemoryStorage::Storage::add_item`. -/
def MemoryStorage.add_item {σ : Type} (B : AnnoyIndexBase σ) (st : σ) (item : Nat)
    (v : List Nat) : σ := B.add_item st item v

/-- The method `MemoryStorage::Storage::get_item`. -/
def MemoryStorage.get_item {σ : Type} (B : AnnoyIndexBase σ) (st : σ) (item : Nat) : List Nat :=
  B.get_item st item

/-- The method `MemoryStorage::Storage::get_n_items`. -/
def MemoryStorage.get_n_items {σ : Type} (B : AnnoyIndexBase σ) (st : σ) : Nat :=
  B.get_n_items st

/-- The method `MemoryStorage::Storage::is_mutable`. -/
def MemoryStorage.is_mutable : Bool := true

/-- The method `FileStorage::Storage::add_item`: the state of the object
afterwards and the text handed to `showUpdate`. -/
def FileStorage.add_item {σ : Type} (st : σ) (_item : Nat) (_v : List Nat) : σ × List String :=
  (st, ["You can\x27t add an item to file storage\n"])

/-- The method `FileStorage::Storage::get_item`, inherited from
`MemoryStorage::Storage`. -/
def FileStorage.get_item {σ : Type} (B : AnnoyIndexBase σ) (st : σ) (item : Nat) : List Nat :=
  MemoryStorage.get_item B st item

/-- The method `FileStorage::Storage::get_n_items`, inherited from
`MemoryStorage::Storage`. -/
def FileStorage.get_n_items {σ : Type} (B : AnnoyIndexBase σ) (st : σ) : Nat :=
  MemoryStorage.get_n_items B st

/-- The method `FileStorage::Storage::is_mutable`. -/
def FileStorage.is_mutable : Bool := false

/-- The lookup `ref_node` makes: the status `_db->Get` returns, which
`ref_node` does not look at, and the string `node` it leaves. -/
def ref_node_lookup (c : Cfg) (st : Storage) (i : Nat) : Status × Bytes :=
  let hd := if c.sge i c.base then Handle.t else Handle.i
  let i := _swap_endian c i
  st.db.Get hd (c.imageS i)

/-- The lookup `get_item` makes: the status `_db->Get` returns, which
`get_item` does not look at, and the string `node` it leaves. -/
def get_item_lookup (c : Cfg) (st : Storage) (item : Nat) : Status × Bytes :=
  let item := _swap_endian c item
  st.db.Get Handle.i (c.imageS item)

/-- Whether a `memcpy` of the first `n` bytes at `node.c_str()` stays inside
the buffer of the string, its characters and the terminating NUL. -/
def copyInBounds (node : Bytes) (n : Nat) : Bool := decide (n ≤ node.length + 1)

/-! ## Bytes of an integer -/

theorem toBytesLE_length (w u : Nat) : (toBytesLE w u).length = w := by
  induction w generalizing u with
  | zero => rfl
  | succ w ih => simp [toBytesLE, ih]

theorem fromBytesLE_toBytesLE (w u : Nat) : fromBytesLE (toBytesLE w u) = u % 256 ^ w := by
  induction w generalizing u with
  | zero => simp [toBytesLE, fromBytesLE, Nat.mod_one]
  | succ w ih =>
    simp only [toBytesLE, fromBytesLE, ih]
    rw [pow_succ, mul_comm (256 ^ w) 256, Nat.mod_mul]

theorem toBytesLE_fromBytesLE (bs : Bytes) (h : ∀ b ∈ bs, b < 256) :
    toBytesLE bs.length (fromBytesLE bs) = bs := by
  induction bs with
  | nil => rfl
  | cons b bs ih =>
    have hb : b < 256 := h b (List.mem_cons_self _ _)
    have hbs : ∀ x ∈ bs, x < 256 := fun x hx => h x (List.mem_cons_of_mem _ hx)
    simp only [List.length_cons, toBytesLE, fromBytesLE]
    have h1 : (b + 256 * fromBytesLE bs) % 256 = b := by omega
    have h2 : (b + 256 * fromBytesLE bs) / 256 = fromBytesLE bs := by omega
    rw [h1, h2, ih hbs]

theorem toBytesLE_lt (w u : Nat) : ∀ b ∈ toBytesLE w u, b < 256 := by
  induction w generalizing u with
  | zero => simp [toBytesLE]
  | succ w ih =>
    intro b hb
    simp only [toBytesLE, List.mem_cons] at hb
    rcases hb with rfl | hb
    · exact Nat.mod_lt _ (by decide)
    · exact ih _ b hb

theorem memImage_length (e : Bool) (w u : Nat) : (memImage e w u).length = w := by
  unfold memImage
  split <;> simp [toBytesLE_length]

theorem memImage_lt (e : Bool) (w u : Nat) : ∀ b ∈ memImage e w u, b < 256 := by
  intro b hb
  unfold memImage at hb
  split at hb
  · exact toBytesLE_lt w u b (List.mem_reverse.mp hb)
  · exact toBytesLE_lt w u b hb

theorem fromImage_memImage (e : Bool) (w u : Nat) :
    fromImage e (memImage e w u) = u % 256 ^ w := by
  unfold fromImage memImage
  split <;> simp [fromBytesLE_toBytesLE]

theorem memImage_fromImage (e : Bool) (bs : Bytes) (h : ∀ b ∈ bs, b < 256) :
    memImage e bs.length (fromImage e bs) = bs := by
  unfold fromImage memImage
  split
  · have := toBytesLE_fromBytesLE bs.reverse (fun b hb => h b (List.mem_reverse.mp hb))
    rw [List.length_reverse] at this
    rw [this, List.reverse_reverse]
  · exact toBytesLE_fromBytesLE bs h

/-! ## The key encoder -/

theorem swap_dest_eq_reverse (l : Bytes) (w : Nat) (h : l.length = w) :
    (List.range w).map (fun k => l.getD (w - k - 1) 0) = l.reverse := by
  apply List.ext_getElem
  · simp [h]
  · intro n h1 h2
    simp only [List.length_map, List.length_range] at h1
    simp only [List.getElem_map, List.getElem_range, List.getElem_reverse]
    rw [List.getD_eq_getElem _ _ (by omega)]
    congr 1
    omega

theorem keyBytes_eq (c : Cfg) (u : Nat) : keyBytes c u = (c.imageS u).reverse := by
  unfold keyBytes _swap_endian
  simp only
  rw [swap_dest_eq_reverse (c.imageS u) c.ssz (memImage_length _ _ _)]
  have hlen : (c.imageS u).reverse.length = c.ssz := by
    simp [Cfg.imageS, memImage_length]
  have := memImage_fromImage c.bigEndianHost (c.imageS u).reverse
    (fun b hb => memImage_lt _ _ _ b (List.mem_reverse.mp hb))
  rw [hlen] at this
  exact this

theorem keyBytes_length (c : Cfg) (u : Nat) : (keyBytes c u).length = c.ssz := by
  simp [keyBytes, Cfg.imageS, memImage_length]

/-- Big-endian bytes: what `keyBytes` is on a little-endian host. -/
theorem keyBytes_le_host (c : Cfg) (h : c.bigEndianHost = false) (u : Nat) :
    keyBytes c u = (toBytesLE c.ssz u).reverse := by
  rw [keyBytes_eq]
  simp [Cfg.imageS, memImage, h]

theorem bytesLt_append_of_lt (a b x y : Bytes) (hlen : a.length = b.length)
    (h : bytesLt a b = true) : bytesLt (a ++ x) (b ++ y) = true := by
  induction a generalizing b with
  | nil =>
    cases b with
    | nil => simp [bytesLt] at h
    | cons _ _ => simp at hlen
  | cons a0 as ih =>
    cases b with
    | nil => simp at hlen
    | cons b0 bs =>
      simp only [List.length_cons, Nat.add_right_cancel_iff] at hlen
      simp only [bytesLt, Bool.or_eq_true, Bool.and_eq_true, decide_eq_true_eq] at h
      simp only [List.cons_append, bytesLt, Bool.or_eq_true, Bool.and_eq_true, decide_eq_true_eq]
      rcases h with h | ⟨h1, h2⟩
      · exact Or.inl h
      · exact Or.inr ⟨h1, ih bs hlen h2⟩

theorem bytesLt_append_last (a : Bytes) (x y : Nat) (h : x < y) :
    bytesLt (a ++ [x]) (a ++ [y]) = true := by
  induction a with
  | nil => simp [bytesLt, h]
  | cons a0 as ih => simp [bytesLt, ih]

theorem bytesLt_irrefl (a : Bytes) : bytesLt a a = false := by
  induction a with
  | nil => rfl
  | cons a0 as ih => simp [bytesLt, ih]

theorem bytesLt_bigEndian (w i j : Nat) (hij : i < j) (hj : j < 256 ^ w) :
    bytesLt (toBytesLE w i).reverse (toBytesLE w j).reverse = true := by
  induction w generalizing i j with
  | zero => simp at hj; omega
  | succ w ih =>
    simp only [toBytesLE, List.reverse_cons]
    have hj' : j / 256 < 256 ^ w := by
      rw [pow_succ] at hj
      exact Nat.div_lt_of_lt_mul (by rw [mul_comm]; exact hj)
    rcases Nat.lt_or_ge (i / 256) (j / 256) with hlt | hge
    · exact bytesLt_append_of_lt _ _ _ _ (by simp [toBytesLE_length]) (ih _ _ hlt hj')
    · have heq : i / 256 = j / 256 := by omega
      rw [heq]
      exact bytesLt_append_last _ _ _ (by omega)

theorem maxS_lt_card (c : Cfg) : c.maxS < c.card := by
  have : 0 < c.card := by unfold Cfg.card; positivity
  unfold Cfg.maxS
  split <;> omega

/-- Order preservation of the key encoder for ids below `card`. -/
theorem key_order_lemma (c : Cfg) (hle : c.bigEndianHost = false) (i j : Nat)
    (hij : i < j) (hj : j < c.card) :
    bytesLt (keyBytes c i) (keyBytes c j) = true := by
  rw [keyBytes_le_host c hle, keyBytes_le_host c hle]
  exact bytesLt_bigEndian c.ssz i j hij hj

/-- Claim C2. On a little-endian host, for every width `sizeof(S)` and every
pair of ids `i < j <= max(S)`, the key written for `i` (the memory image of
`_swap_endian(i)`) is byte-wise lexicographically less than the key written
for `j`. -/
theorem key_order_preserving (c : Cfg) (hle : c.bigEndianHost = false) (i j : Nat)
    (hij : i < j) (hj : j ≤ c.maxS) :
    bytesLt (keyBytes c i) (keyBytes c j) = true :=
  key_order_lemma c hle i j hij (lt_of_le_of_lt hj (maxS_lt_card c))

/-- Claim C2 at 32-bit and 64-bit ids: the keys of 255 and 256. -/
theorem key_order_preserving_witness :
    (bytesLt (keyBytes (cfg32 40) 255) (keyBytes (cfg32 40) 256) = true) ∧
    (bytesLt (keyBytes (cfg64 40) 255) (keyBytes (cfg64 40) 256) = true) :=
  ⟨key_order_preserving (cfg32 40) rfl 255 256 (by decide) (by decide),
   key_order_preserving (cfg64 40) rfl 255 256 (by decide) (by decide)⟩

/-! ## Decoding a key -/

theorem card_pos (c : Cfg) : 0 < c.card := by
  unfold Cfg.card
  positivity

theorem loadS_imageS (c : Cfg) (u : Nat) : c.loadS (c.imageS u) = u % c.card := by
  unfold Cfg.loadS Cfg.imageS
  rw [List.take_of_length_le (by simp [memImage_length])]
  exact fromImage_memImage _ _ _

theorem swap_endian_eq (c : Cfg) (u : Nat) :
    _swap_endian c u = fromImage c.bigEndianHost (c.imageS u).reverse := by
  unfold _swap_endian
  simp only
  rw [swap_dest_eq_reverse (c.imageS u) c.ssz (memImage_length _ _ _)]

theorem fromImage_reverse_reverse (e : Bool) (w u : Nat) :
    fromImage e (memImage e w (fromImage e (memImage e w u).reverse)).reverse = u % 256 ^ w := by
  have hlt : ∀ b ∈ (memImage e w u).reverse, b < 256 :=
    fun b hb => memImage_lt _ _ _ b (List.mem_reverse.mp hb)
  have h := memImage_fromImage e (memImage e w u).reverse hlt
  rw [List.length_reverse, memImage_length] at h
  rw [h, List.reverse_reverse, fromImage_memImage]

theorem swap_endian_swap_endian (c : Cfg) (u : Nat) :
    _swap_endian c (_swap_endian c u) = u % c.card := by
  rw [swap_endian_eq c (_swap_endian c u), swap_endian_eq c u]
  exact fromImage_reverse_reverse _ _ _

theorem swap_endian_lt_card (c : Cfg) (u : Nat) : _swap_endian c u < c.card := by
  have hlt : ∀ b ∈ (c.imageS u).reverse, b < 256 :=
    fun b hb => memImage_lt _ _ _ b (List.mem_reverse.mp hb)
  have h := memImage_fromImage c.bigEndianHost (c.imageS u).reverse hlt
  rw [List.length_reverse, show (c.imageS u).length = c.ssz from memImage_length _ _ _] at h
  have h2 := fromImage_memImage c.bigEndianHost c.ssz
    (fromImage c.bigEndianHost (c.imageS u).reverse)
  rw [h] at h2
  rw [swap_endian_eq, h2]
  exact Nat.mod_lt _ (card_pos c)

/-- The id `_get_last_key` reads back from a key written for `u`. -/
theorem decode_keyBytes (c : Cfg) (u : Nat) (hu : u < c.card) :
    _swap_endian c (c.loadS (keyBytes c u)) = u := by
  unfold keyBytes
  rw [loadS_imageS, Nat.mod_eq_of_lt (swap_endian_lt_card c u), swap_endian_swap_endian,
    Nat.mod_eq_of_lt hu]

/-! ## The node id counter -/

theorem toInt_of_le_maxS (c : Cfg) (hs : 0 < c.ssz) (u : Nat) (hu : u ≤ c.maxS) :
    c.toInt u = (u : Int) := by
  unfold Cfg.toInt
  split
  · rename_i h
    obtain ⟨hsg, hge⟩ := h
    have h256 : 256 ≤ c.card := by
      unfold Cfg.card
      calc 256 = 256 ^ 1 := by norm_num
        _ ≤ 256 ^ c.ssz := Nat.pow_le_pow_right (by norm_num) hs
    unfold Cfg.maxS at hu
    rw [if_pos hsg] at hu
    omega
  · rfl

theorem base_le_maxS (c : Cfg) : c.base ≤ c.maxS := Nat.div_le_self _ _

theorem le_maxS_of_toInt_pos (c : Cfg) (u : Nat) (hu : u < c.card) (h : 0 ≤ c.toInt u) :
    u ≤ c.maxS ∧ c.toInt u = (u : Int) := by
  unfold Cfg.toInt at h ⊢
  unfold Cfg.maxS
  split at h
  · omega
  · rename_i hn
    rw [if_neg hn]
    refine ⟨?_, rfl⟩
    split
    · rename_i hsg
      have : ¬ c.card / 2 ≤ u := fun h2 => hn ⟨hsg, h2⟩
      omega
    · omega

theorem get_last_key_lt_card (c : Cfg) (db : DB) (hd : Handle) :
    _get_last_key c db hd < c.card := by
  unfold _get_last_key
  split
  · exact swap_endian_lt_card _ _
  · exact card_pos c

/-- After the constructor the counter is a node id: at least the midpoint and
at most `max(S)`. -/
theorem constructor_counter_bounds (c : Cfg) (hs : 0 < c.ssz) (db : DB) :
    c.base ≤ (RocksDBStorage c db).atomic_tree_node_id ∧
      (RocksDBStorage c db).atomic_tree_node_id ≤ c.maxS := by
  unfold RocksDBStorage Cfg.smax Cfg.slt
  simp only
  split
  · rename_i h
    rw [decide_eq_true_eq, toInt_of_le_maxS c hs c.base (base_le_maxS c)] at h
    have hl := le_maxS_of_toInt_pos c _ (get_last_key_lt_card c db Handle.t) (by omega)
    constructor
    · have := hl.2
      omega
    · exact hl.1
  · exact ⟨le_refl _, base_le_maxS c⟩

theorem add_item_counter (c : Cfg) (st : Storage) (raw : Bytes) (item : Nat) (v : List Nat) :
    (add_item c st raw item v).atomic_tree_node_id = st.atomic_tree_node_id := by
  unfold add_item
  split <;> rfl

theorem set_roots_counter (c : Cfg) (st : Storage) (roots : List Nat) :
    (set_roots c st roots).atomic_tree_node_id = st.atomic_tree_node_id := rfl

/-- The ids a sequence of calls returns are consecutive from the counter on,
as long as the counter does not wrap. -/
theorem run_ids_eq_range (c : Cfg) (ops : List Op) (st : Storage)
    (h : st.atomic_tree_node_id + countAppends ops ≤ c.card) :
    (run c st ops).1 = List.range' st.atomic_tree_node_id (countAppends ops) := by
  induction ops generalizing st with
  | nil => rfl
  | cons op ops ih =>
    have happ : ∀ st' : Storage,
        st'.atomic_tree_node_id = (st.atomic_tree_node_id + 1) % c.card →
        st.atomic_tree_node_id + (countAppends ops + 1) ≤ c.card →
        st.atomic_tree_node_id :: (run c st' ops).1 =
          List.range' st.atomic_tree_node_id (countAppends ops + 1) := by
      intro st' hst' hle
      rw [List.range'_succ]
      congr 1
      rcases Nat.eq_zero_or_pos (countAppends ops) with h0 | hpos
      · have := ih st' (by rw [h0, hst']; exact le_of_lt (Nat.mod_lt _ (card_pos c)))
        rw [this, h0]
        rfl
      · have hctr : st'.atomic_tree_node_id = st.atomic_tree_node_id + 1 := by
          rw [hst']
          exact Nat.mod_eq_of_lt (by omega)
        rw [ih st' (by rw [hctr]; omega), hctr]
    cases op with
    | add_item raw item v =>
      simp only [run, step, countAppends, Option.toList, List.nil_append] at h ⊢
      rw [ih _ (by rw [add_item_counter]; exact h), add_item_counter]
    | set_roots roots =>
      simp only [run, step, countAppends, Option.toList, List.nil_append] at h ⊢
      rw [ih _ (by rw [set_roots_counter]; exact h), set_roots_counter]
    | append_node node =>
      simp only [run, step, countAppends, Option.toList, List.singleton_append] at h ⊢
      exact happ _ rfl h
    | append_node_indices raw indices =>
      simp only [run, step, countAppends, Option.toList, List.singleton_append] at h ⊢
      exact happ _ rfl h

/-- Claim C3. In a session (the constructor on any database, then any
sequence of calls), as long as the counter does not pass `max(S)`, the ids the
`append_node` calls return are strictly increasing in call order, each is at
least the midpoint `max(S) / 2` and at most `max(S)`, and they are pairwise
distinct. -/
theorem append_node_ids_increasing (c : Cfg) (hs : 0 < c.ssz) (db : DB) (ops : List Op)
    (hroom : (RocksDBStorage c db).atomic_tree_node_id + countAppends ops ≤ c.maxS + 1) :
    (run c (RocksDBStorage c db) ops).1.Pairwise (fun t1 t2 => t1 < t2) ∧
    (∀ t ∈ (run c (RocksDBStorage c db) ops).1, c.maxS / 2 ≤ t ∧ t ≤ c.maxS) ∧
    (run c (RocksDBStorage c db) ops).1.Nodup := by
  have hcard : c.maxS + 1 ≤ c.card := maxS_lt_card c
  have hb := constructor_counter_bounds c hs db
  rw [run_ids_eq_range c ops _ (le_trans hroom hcard)]
  refine ⟨?_, ?_, ?_⟩
  · exact List.pairwise_lt_range' _ _
  · intro t ht
    rw [List.mem_range'_1] at ht
    have hbase : c.base = c.maxS / 2 := rfl
    omega
  · exact List.nodup_range' _ _

/-- Claim C3 on a new 32-bit store: three appends between other calls return
the midpoint and its two successors. -/
theorem append_node_ids_increasing_witness :
    (run (cfg32 2) (RocksDBStorage (cfg32 2) DB.empty)
        [Op.append_node (List.replicate 20 1), Op.add_item (List.replicate 20 0) 5 [1, 2],
         Op.append_node_indices (List.replicate 20 0) [3, 4, 7],
         Op.append_node (List.replicate 20 2)]).1.Pairwise (fun t1 t2 => t1 < t2) ∧
    (∀ t ∈ (run (cfg32 2) (RocksDBStorage (cfg32 2) DB.empty)
        [Op.append_node (List.replicate 20 1), Op.add_item (List.replicate 20 0) 5 [1, 2],
         Op.append_node_indices (List.replicate 20 0) [3, 4, 7],
         Op.append_node (List.replicate 20 2)]).1,
      (cfg32 2).maxS / 2 ≤ t ∧ t ≤ (cfg32 2).maxS) ∧
    (run (cfg32 2) (RocksDBStorage (cfg32 2) DB.empty)
        [Op.append_node (List.replicate 20 1), Op.add_item (List.replicate 20 0) 5 [1, 2],
         Op.append_node_indices (List.replicate 20 0) [3, 4, 7],
         Op.append_node (List.replicate 20 2)]).1.Nodup :=
  append_node_ids_increasing (cfg32 2) (by decide) DB.empty _ (by decide)

/-! ## Reopening a store -/

/-- The constructor seeds the counter with the highest persisted node id
itself: when the last key of the node keyspace was written for `X`, a node id,
the first `append_node` of the new session returns `X`. -/
theorem reopen_append_returns_last (c : Cfg) (hs : 0 < c.ssz) (db : DB) (kv : Bytes × Bytes)
    (X : Nat) (hlast : db.tree.getLast? = some kv) (hkey : kv.1 = keyBytes c X)
    (hX : c.base ≤ X) (hX' : X ≤ c.maxS) (node : Bytes) :
    (append_node c (RocksDBStorage c db) node).1 = X := by
  have hlk : _get_last_key c db Handle.t = X := by
    unfold _get_last_key DB.SeekToLast DB.cf
    simp only [hlast, hkey]
    exact decode_keyBytes c X (lt_of_le_of_lt hX' (maxS_lt_card c))
  unfold append_node RocksDBStorage Cfg.smax Cfg.slt
  simp only [hlk]
  rw [toInt_of_le_maxS c hs _ (base_le_maxS c), toInt_of_le_maxS c hs _ hX']
  split
  · rfl
  · rename_i h
    rw [decide_eq_true_eq] at h
    omega

/-- Claim C1, the code at the failing input. A new 32-bit store gets one node:
`append_node` returns `X = 1073741823` and the record is stored under `X`.
After closing and reopening, the first `append_node` returns `X` again and the
record under `X` is replaced by the new one. -/
theorem reopen_first_append_reuses_last_id :
    (append_node (cfg32 2) (RocksDBStorage (cfg32 2) DB.empty) (List.replicate 20 1)).1
      = 1073741823 ∧
    ref_node (cfg32 2)
      (append_node (cfg32 2) (RocksDBStorage (cfg32 2) DB.empty) (List.replicate 20 1)).2
      (fun _ => 0) 1073741823 = List.replicate 20 1 ∧
    (append_node (cfg32 2)
      (RocksDBStorage (cfg32 2) (unload
        (append_node (cfg32 2) (RocksDBStorage (cfg32 2) DB.empty) (List.replicate 20 1)).2))
      (List.replicate 20 2)).1 = 1073741823 ∧
    ref_node (cfg32 2)
      (append_node (cfg32 2)
        (RocksDBStorage (cfg32 2) (unload
          (append_node (cfg32 2) (RocksDBStorage (cfg32 2) DB.empty) (List.replicate 20 1)).2))
        (List.replicate 20 2)).2
      (fun _ => 0) 1073741823 = List.replicate 20 2 := by
  decide

/-! ## Store laws -/

theorem ksGet_ksPut_same (ks : Keyspace) (k v : Bytes) : ksGet (ksPut ks k v) k = some v := by
  induction ks with
  | nil => simp [ksPut, ksGet]
  | cons e rest ih =>
    obtain ⟨k', v'⟩ := e
    unfold ksPut
    split
    · simp [ksGet]
    · split
      · simp [ksGet]
      · rename_i hne _
        simp [ksGet, hne, ih]

theorem ksGet_ksPut_other (ks : Keyspace) (k k2 v : Bytes) (h : k2 ≠ k) :
    ksGet (ksPut ks k v) k2 = ksGet ks k2 := by
  induction ks with
  | nil => simp [ksPut, ksGet, h]
  | cons e rest ih =>
    obtain ⟨k', v'⟩ := e
    unfold ksPut
    split
    · rename_i hk
      subst hk
      simp [ksGet, h]
    · split
      · simp [ksGet, h]
      · by_cases h2 : k2 = k'
        · simp [ksGet, h2]
        · simp [ksGet, h2, ih]

theorem cf_setCf_same (db : DB) (hd : Handle) (ks : Keyspace) : (db.setCf hd ks).cf hd = ks := by
  cases hd <;> rfl

theorem cf_setCf_other (db : DB) (hd hd2 : Handle) (ks : Keyspace) (h : hd2 ≠ hd) :
    (db.setCf hd ks).cf hd2 = db.cf hd2 := by
  cases hd <;> cases hd2 <;> first | rfl | exact absurd rfl h

theorem Get_Put_same (db : DB) (hd : Handle) (k v : Bytes) :
    (db.Put hd k v).Get hd k = (Status.ok, v) := by
  unfold DB.Get DB.Put
  rw [cf_setCf_same, ksGet_ksPut_same]

theorem Get_Put_other_key (db : DB) (hd : Handle) (k k2 v : Bytes) (h : k2 ≠ k) :
    (db.Put hd k v).Get hd k2 = db.Get hd k2 := by
  unfold DB.Get DB.Put
  rw [cf_setCf_same, ksGet_ksPut_other _ _ _ _ h]

theorem Get_Put_other_cf (db : DB) (hd hd2 : Handle) (k k2 v : Bytes) (h : hd2 ≠ hd) :
    (db.Put hd k v).Get hd2 k2 = db.Get hd2 k2 := by
  unfold DB.Get DB.Put
  rw [cf_setCf_other _ _ _ _ h]

/-! ## Buffer laws -/

theorem writeAt_length (buf : Bytes) (off : Nat) (bs : Bytes)
    (h : off + bs.length ≤ buf.length) : (writeAt buf off bs).length = buf.length := by
  unfold writeAt
  simp only [List.length_append, List.length_take, List.length_drop]
  omega

theorem readAt_writeAt_same (buf : Bytes) (off : Nat) (bs : Bytes) (h : off ≤ buf.length) :
    readAt (writeAt buf off bs) off bs.length = bs := by
  unfold readAt writeAt
  have hlen : (List.take off buf).length = off := by simp [h]
  rw [List.append_assoc, List.drop_append_of_le_length (by omega), List.drop_of_length_le (by omega),
    List.nil_append, List.take_left']
  rfl

theorem readAt_writeAt_before (buf : Bytes) (off : Nat) (bs : Bytes) (o n : Nat)
    (h : o + n ≤ off) (hoff : off ≤ buf.length) :
    readAt (writeAt buf off bs) o n = readAt buf o n := by
  unfold readAt writeAt
  have hlen : (List.take off buf).length = off := by simp [hoff]
  rw [List.append_assoc, List.drop_append_of_le_length (by omega),
    List.take_append_of_le_length (by simp only [List.length_drop]; omega)]
  rw [List.drop_take, List.take_take]
  congr 1
  omega

theorem readAt_writeAt_after (buf : Bytes) (off : Nat) (bs : Bytes) (o n : Nat)
    (h : off + bs.length ≤ o) (hoff : off ≤ buf.length) :
    readAt (writeAt buf off bs) o n = readAt buf o n := by
  unfold readAt writeAt
  have hlen : (List.take off buf ++ bs).length = off + bs.length := by simp [hoff]
  rw [List.drop_append_eq_append_drop, List.drop_of_length_le (by omega), List.nil_append, hlen,
    List.drop_drop]
  congr 2
  omega

theorem cRead_of_le_length (node : Bytes) (oob : Nat → Nat) (n : Nat) (h : n ≤ node.length) :
    cRead node oob n = node.take n := by
  unfold cRead
  exact List.take_append_of_le_length h

/-- Reading chunk `z` out of a concatenation of chunks of equal size. -/
theorem readAt_flatten_chunk (w : Nat) (cs : List Bytes) (hw : ∀ x ∈ cs, x.length = w)
    (z : Nat) (hz : z < cs.length) : readAt cs.flatten (z * w) w = cs.getD z [] := by
  induction cs generalizing z with
  | nil => simp at hz
  | cons c0 rest ih =>
    have h0 : c0.length = w := hw c0 (List.mem_cons_self _ _)
    have hr : ∀ x ∈ rest, x.length = w := fun x hx => hw x (List.mem_cons_of_mem _ hx)
    cases z with
    | zero =>
      unfold readAt
      simp only [List.flatten_cons, Nat.zero_mul, List.drop_zero, List.getD_cons_zero]
      rw [List.take_append_of_le_length (by omega), List.take_of_length_le (by omega)]
    | succ z =>
      have hz' : z < rest.length := by simpa using hz
      have := ih hr z hz'
      unfold readAt at this ⊢
      simp only [List.flatten_cons, List.getD_cons_succ]
      rw [List.drop_append_eq_append_drop, List.drop_of_length_le (by rw [h0, Nat.succ_mul]; omega),
        List.nil_append, h0]
      have he : (z + 1) * w - w = z * w := by rw [Nat.succ_mul]; omega
      rw [he]
      exact this

/-! ## Item records -/

theorem flatten_map_length (w : Nat) (g : Nat → Bytes) (hg : ∀ z, (g z).length = w)
    (l : List Nat) : (l.map g).flatten.length = l.length * w := by
  induction l with
  | nil => simp
  | cons a l ih =>
    simp only [List.map_cons, List.flatten_cons, List.length_append, hg, ih, List.length_cons]
    rw [Nat.succ_mul]
    omega

theorem imageT_length (c : Cfg) (x : Nat) : (c.imageT x).length = c.tsz := memImage_length _ _ _

theorem imageS_length (c : Cfg) (x : Nat) : (c.imageS x).length = c.ssz := memImage_length _ _ _

/-- The loop `for (z = 0; z < k; z++) n->v[z] = v[z]` leaves the bytes before
`v` and after `v[k - 1]` alone and puts the images of `v[0 .. k-1]` between. -/
theorem store_loop_eq (c : Cfg) (v : List Nat) (n : Bytes) (k : Nat)
    (h : c.vo + k * c.tsz ≤ n.length) :
    (List.range k).foldl (fun n z => writeAt n (c.vo + z * c.tsz) (c.imageT (v.getD z 0))) n
      = n.take c.vo ++ ((List.range k).map (fun z => c.imageT (v.getD z 0))).flatten
          ++ n.drop (c.vo + k * c.tsz) := by
  induction k with
  | zero => simp
  | succ k ih =>
    have hk : c.vo + k * c.tsz ≤ n.length := by rw [Nat.succ_mul] at h; omega
    rw [List.range_succ, List.foldl_append, List.foldl_cons, List.foldl_nil, ih hk]
    have hfl := flatten_map_length c.tsz (fun z => c.imageT (v.getD z 0))
      (fun z => imageT_length c _) (List.range k)
    rw [List.length_range] at hfl
    have hpre : (List.take c.vo n ++
        ((List.range k).map (fun z => c.imageT (v.getD z 0))).flatten).length
          = c.vo + k * c.tsz := by
      rw [List.length_append, hfl, List.length_take]
      omega
    unfold writeAt
    rw [List.take_append_of_le_length (by omega), List.take_of_length_le (by omega),
      List.drop_append_eq_append_drop, List.drop_of_length_le (by omega), List.nil_append,
      hpre, imageT_length, List.drop_drop, List.map_append, List.flatten_append]
    simp only [List.map_cons, List.map_nil, List.flatten_cons, List.flatten_nil, List.append_nil,
      List.append_assoc]
    have he : c.vo + k * c.tsz + (c.vo + k * c.tsz + c.tsz - (c.vo + k * c.tsz))
        = c.vo + (k + 1) * c.tsz := by
      rw [Nat.succ_mul]
      omega
    rw [he]

/-- The header part of an item record has the size of the block. -/
theorem item_header_length (c : Cfg) (hwf : c.WF) (raw : Bytes) (hraw : raw.length = c.s) :
    (writeAt (writeAt (writeAt raw c.co (c.imageS 0)) (c.co + c.ssz) (c.imageS 0)) 0
      (c.imageS 1)).length = c.s := by
  obtain ⟨h1, h2, h3⟩ := hwf
  have hs : c.vo ≤ c.s := Nat.le_add_right _ _
  have l1 : (writeAt raw c.co (c.imageS 0)).length = c.s := by
    rw [writeAt_length _ _ _ (by rw [imageS_length]; omega), hraw]
  have l2 : (writeAt (writeAt raw c.co (c.imageS 0)) (c.co + c.ssz) (c.imageS 0)).length
      = c.s := by
    rw [writeAt_length _ _ _ (by rw [imageS_length]; omega), l1]
  rw [writeAt_length _ _ _ (by rw [imageS_length]; omega), l2]

/-- The record `add_item` writes: the header bytes up to `v`, then the images
of the `f` components. -/
theorem itemRecord_eq (c : Cfg) (hwf : c.WF) (raw : Bytes) (hraw : raw.length = c.s)
    (v : List Nat) :
    itemRecord c raw v =
      (writeAt (writeAt (writeAt raw c.co (c.imageS 0)) (c.co + c.ssz) (c.imageS 0)) 0
        (c.imageS 1)).take c.vo
      ++ ((List.range c.f).map (fun z => c.imageT (v.getD z 0))).flatten := by
  have hl := item_header_length c hwf raw hraw
  unfold itemRecord
  simp only
  rw [store_loop_eq c v _ c.f (by rw [hl]; exact le_refl _),
    List.drop_of_length_le (by rw [hl]; exact le_refl _), List.append_nil]

theorem itemRecord_length (c : Cfg) (hwf : c.WF) (raw : Bytes) (hraw : raw.length = c.s)
    (v : List Nat) : (itemRecord c raw v).length = c.s := by
  rw [itemRecord_eq c hwf raw hraw, List.length_append,
    flatten_map_length c.tsz _ (fun z => imageT_length c _), List.length_range, List.length_take,
    item_header_length c hwf raw hraw]
  have hs : c.vo ≤ c.s := Nat.le_add_right _ _
  unfold Cfg.s at hs ⊢
  omega

/-- The vector decoded from the `v` part of an item record. -/
theorem vecOf_itemRecord (c : Cfg) (hwf : c.WF) (raw : Bytes) (hraw : raw.length = c.s)
    (v : List Nat) (hlen : v.length = c.f) (hv : ∀ x ∈ v, x < 256 ^ c.tsz) :
    c.vecOf (readAt (itemRecord c raw v) c.vo (c.f * c.tsz)) = v := by
  have hl := item_header_length c hwf raw hraw
  have hs : c.vo ≤ c.s := Nat.le_add_right _ _
  have hfl := flatten_map_length c.tsz (fun z => c.imageT (v.getD z 0))
    (fun z => imageT_length c _) (List.range c.f)
  rw [List.length_range] at hfl
  have hread : readAt (itemRecord c raw v) c.vo (c.f * c.tsz)
      = ((List.range c.f).map (fun z => c.imageT (v.getD z 0))).flatten := by
    rw [itemRecord_eq c hwf raw hraw]
    unfold readAt
    rw [List.drop_append_eq_append_drop, List.drop_of_length_le (by simp), List.nil_append,
      List.length_take, hl, Nat.min_eq_left hs, Nat.sub_self, List.drop_zero,
      List.take_of_length_le (by omega)]
  rw [hread]
  unfold Cfg.vecOf
  apply List.ext_getElem
  · simp [hlen]
  · intro z h1 h2
    simp only [List.length_map, List.length_range] at h1
    simp only [List.getElem_map, List.getElem_range]
    rw [readAt_flatten_chunk c.tsz _ (by
        intro x hx
        simp only [List.mem_map] at hx
        obtain ⟨a, _, rfl⟩ := hx
        exact imageT_length c _) z (by simp [h1])]
    rw [List.getD_eq_getElem _ _ (by simp [h1])]
    simp only [List.getElem_map, List.getElem_range]
    rw [List.getD_eq_getElem _ _ h2]
    unfold Cfg.imageT
    rw [fromImage_memImage, Nat.mod_eq_of_lt (hv _ (List.getElem_mem _))]

theorem sge_base_false (c : Cfg) (hs : 0 < c.ssz) (i : Nat) (hi : i < c.base) :
    c.sge i c.base = false := by
  unfold Cfg.sge
  rw [toInt_of_le_maxS c hs _ (base_le_maxS c),
    toInt_of_le_maxS c hs i (le_trans (le_of_lt hi) (base_le_maxS c))]
  simp only [decide_eq_false_iff_not, not_le]
  exact_mod_cast hi

/-- What `get_item` returns for an id right after `add_item` wrote it. -/
theorem get_item_add_item (c : Cfg) (hwf : c.WF) (st : Storage) (oob : Nat → Nat)
    (raw : Bytes) (hraw : raw.length = c.s) (i : Nat) (hi : i < c.base)
    (v : List Nat) (hlen : v.length = c.f) (hv : ∀ x ∈ v, x < 256 ^ c.tsz) :
    get_item c (add_item c st raw i v) oob i = v := by
  unfold add_item
  rw [sge_base_false c hwf.1 i hi]
  simp only [Bool.false_eq_true, if_false]
  unfold get_item
  simp only
  rw [Get_Put_same]
  simp only
  have hl := itemRecord_length c hwf raw hraw v
  rw [List.take_of_length_le (by rw [hl]),
    cRead_of_le_length _ _ _ (by rw [hl]; exact le_refl _),
    List.take_of_length_le (by rw [hl]; exact le_refl _)]
  exact vecOf_itemRecord c hwf raw hraw v hlen hv

/-- Claim C4. For every item id `i` below the midpoint and every vector `v` of
`f` components, `get_item(i, out)` after `add_item(i, v)` gives `out = v`; and
after `add_item(i, v1)` then `add_item(i, v2)` it gives `v2`. -/
theorem add_item_get_item_roundtrip (c : Cfg) (hwf : c.WF) (st : Storage) (oob : Nat → Nat)
    (raw1 raw2 : Bytes) (hraw1 : raw1.length = c.s) (hraw2 : raw2.length = c.s)
    (i : Nat) (hi : i < c.maxS / 2)
    (v1 v2 : List Nat) (hlen1 : v1.length = c.f) (hlen2 : v2.length = c.f)
    (hv1 : ∀ x ∈ v1, x < 256 ^ c.tsz) (hv2 : ∀ x ∈ v2, x < 256 ^ c.tsz) :
    get_item c (add_item c st raw1 i v1) oob i = v1 ∧
    get_item c (add_item c (add_item c st raw1 i v1) raw2 i v2) oob i = v2 :=
  ⟨get_item_add_item c hwf st oob raw1 hraw1 i hi v1 hlen1 hv1,
   get_item_add_item c hwf _ oob raw2 hraw2 i hi v2 hlen2 hv2⟩

/-- Claim C4 at item 5 of a 32-bit store with `f = 3`. -/
theorem add_item_get_item_roundtrip_witness :
    get_item (cfg32 3)
      (add_item (cfg32 3) (RocksDBStorage (cfg32 3) DB.empty) (List.replicate 24 170) 5
        [1065353216, 3221225472, 7]) (fun _ => 0) 5 = [1065353216, 3221225472, 7] ∧
    get_item (cfg32 3)
      (add_item (cfg32 3)
        (add_item (cfg32 3) (RocksDBStorage (cfg32 3) DB.empty) (List.replicate 24 170) 5
          [1065353216, 3221225472, 7])
        (List.replicate 24 85) 5 [9, 8, 1073741824]) (fun _ => 0) 5 = [9, 8, 1073741824] :=
  add_item_get_item_roundtrip (cfg32 3) (by decide) (RocksDBStorage (cfg32 3) DB.empty)
    (fun _ => 0) (List.replicate 24 170) (List.replicate 24 85) (by decide) (by decide) 5
    (by decide) [1065353216, 3221225472, 7] [9, 8, 1073741824] (by decide) (by decide)
    (by decide) (by decide)

/-! ## Node records -/

theorem sge_base_true (c : Cfg) (hs : 0 < c.ssz) (t : Nat) (hlo : c.base ≤ t)
    (hhi : t ≤ c.maxS) : c.sge t c.base = true := by
  unfold Cfg.sge
  rw [toInt_of_le_maxS c hs _ (base_le_maxS c), toInt_of_le_maxS c hs t hhi]
  simp only [decide_eq_true_eq]
  exact_mod_cast hlo

/-- Claim C5. For every node record `n` of `s` bytes, in a state whose counter
is a node id (between the midpoint and `max(S)`, as the constructor leaves
it), `ref_node` of the id `append_node(n)` returns gives back `n`, byte for
byte. -/
theorem append_node_ref_node_roundtrip (c : Cfg) (hs : 0 < c.ssz) (st : Storage)
    (oob : Nat → Nat) (n : Bytes) (hn : n.length = c.s)
    (hlo : c.maxS / 2 ≤ st.atomic_tree_node_id) (hhi : st.atomic_tree_node_id ≤ c.maxS) :
    ref_node c (append_node c st n).2 oob (append_node c st n).1 = n := by
  unfold ref_node append_node
  simp only
  rw [sge_base_true c hs _ hlo hhi]
  simp only [if_true]
  rw [Get_Put_same]
  simp only
  rw [List.take_of_length_le (by rw [hn]),
    cRead_of_le_length _ _ _ (by rw [hn]), List.take_of_length_le (by rw [hn])]

/-- Claim C5 on a new 32-bit store with `f = 2`: a record of 20 bytes. -/
theorem append_node_ref_node_roundtrip_witness :
    ref_node (cfg32 2)
      (append_node (cfg32 2) (RocksDBStorage (cfg32 2) DB.empty)
        [2, 0, 0, 0, 5, 0, 0, 0, 9, 0, 0, 0, 1, 2, 3, 4, 5, 6, 7, 255]).2 (fun _ => 0)
      (append_node (cfg32 2) (RocksDBStorage (cfg32 2) DB.empty)
        [2, 0, 0, 0, 5, 0, 0, 0, 9, 0, 0, 0, 1, 2, 3, 4, 5, 6, 7, 255]).1
      = [2, 0, 0, 0, 5, 0, 0, 0, 9, 0, 0, 0, 1, 2, 3, 4, 5, 6, 7, 255] :=
  append_node_ref_node_roundtrip (cfg32 2) (by decide) (RocksDBStorage (cfg32 2) DB.empty)
    (fun _ => 0) _ (by decide) (by decide) (by decide)

theorem readAt_readAt (buf : Bytes) (o n o2 n2 : Nat) (h : o2 + n2 ≤ n) :
    readAt (readAt buf o n) o2 n2 = readAt buf (o + o2) n2 := by
  unfold readAt
  rw [List.drop_take, List.take_take, List.drop_drop, Nat.min_eq_left (by omega)]

theorem loadS_eq_readAt (c : Cfg) (buf : Bytes) (o : Nat) :
    c.loadS (buf.drop o) = fromImage c.bigEndianHost (readAt buf o c.ssz) := rfl

theorem K_bound (c : Cfg) (n : Nat)
    (hK : (n : Int) ≤ c.toInt (max_descendants c)) (hn : 0 < n) :
    n ≤ c.maxS ∧ n ≤ (c.s - c.co) / c.ssz := by
  have hlt : max_descendants c < c.card := Nat.mod_lt _ (card_pos c)
  have h := le_maxS_of_toInt_pos c _ hlt (by omega)
  have hle : max_descendants c ≤ (c.s - c.co) / c.ssz := Nat.mod_le _ _
  have h2 := h.2
  omega

/-- The record `append_node(const vector<S> &)` builds, for a list that fits:
its size, its count field and its child slots. -/
theorem indicesRecord_fields (c : Cfg) (hwf : c.WF) (raw : Bytes) (hraw : raw.length = c.s)
    (L : List Nat) (hne : L ≠ []) (hK : (L.length : Int) ≤ c.toInt (max_descendants c))
    (hL : ∀ x ∈ L, x < c.card) :
    (indicesRecord c raw L).length = c.s ∧
    c.n_descendants (indicesRecord c raw L) = L.length ∧
    (List.range L.length).map (c.child (indicesRecord c raw L)) = L := by
  obtain ⟨h1, h2, h3⟩ := hwf
  have hpos : 0 < L.length := List.length_pos.mpr hne
  obtain ⟨hmax, hfit⟩ := K_bound c L.length hK hpos
  have hs : c.vo ≤ c.s := Nat.le_add_right _ _
  have hmul : L.length * c.ssz ≤ c.s - c.co :=
    le_trans (Nat.mul_le_mul_right _ hfit) (Nat.div_mul_le_self _ _)
  have hfl : (L.map c.imageS).flatten.length = L.length * c.ssz :=
    flatten_map_length c.ssz c.imageS (imageS_length c) L
  have l1 : (writeAt raw 0 (c.imageS (L.length % c.card))).length = c.s := by
    rw [writeAt_length _ _ _ (by rw [imageS_length]; omega), hraw]
  unfold indicesRecord
  simp only
  refine ⟨?_, ?_, ?_⟩
  · rw [writeAt_length _ _ _ (by rw [hfl, l1]; omega), l1]
  · unfold Cfg.n_descendants
    rw [← List.drop_zero (writeAt _ c.co _), loadS_eq_readAt,
      readAt_writeAt_before _ _ _ 0 c.ssz (by omega) (by rw [l1]; omega)]
    have := readAt_writeAt_same raw 0 (c.imageS (L.length % c.card)) (Nat.zero_le _)
    rw [imageS_length] at this
    rw [this]
    unfold Cfg.imageS
    rw [fromImage_memImage, show 256 ^ c.ssz = c.card from rfl, Nat.mod_mod]
    exact Nat.mod_eq_of_lt (lt_of_le_of_lt hmax (maxS_lt_card c))
  · apply List.ext_getElem
    · simp
    · intro k hk1 hk2
      simp only [List.getElem_map, List.getElem_range]
      unfold Cfg.child
      rw [loadS_eq_readAt]
      have hrd := readAt_writeAt_same (writeAt raw 0 (c.imageS (L.length % c.card))) c.co
        (L.map c.imageS).flatten (by rw [l1]; omega)
      have hkk : k * c.ssz + c.ssz ≤ L.length * c.ssz := by
        have : (k + 1) * c.ssz ≤ L.length * c.ssz := Nat.mul_le_mul_right _ hk2
        rw [Nat.succ_mul] at this
        exact this
      rw [← readAt_readAt _ c.co (L.map c.imageS).flatten.length (k * c.ssz) c.ssz
        (by rw [hfl]; exact hkk), hrd]
      rw [readAt_flatten_chunk c.ssz _ (by
        intro x hx
        simp only [List.mem_map] at hx
        obtain ⟨a, _, rfl⟩ := hx
        exact imageS_length c _) k (by simpa using hk2)]
      rw [List.getD_eq_getElem _ _ (by simpa using hk2)]
      simp only [List.getElem_map]
      unfold Cfg.imageS
      rw [fromImage_memImage]
      exact Nat.mod_eq_of_lt (hL _ (List.getElem_mem _))

/-- Claim C6. For every non-empty list `L` of child ids of length at most
`max_descendants()`, `append_node(L)` stores under the id it returns a record
whose descendant count is the length of `L` and whose first child slots are
the elements of `L`, in order. -/
theorem append_node_indices_record (c : Cfg) (hwf : c.WF) (st : Storage) (raw : Bytes)
    (hraw : raw.length = c.s) (L : List Nat) (hne : L ≠ [])
    (hK : (L.length : Int) ≤ c.toInt (max_descendants c)) (hL : ∀ x ∈ L, x < c.card) :
    ∃ node : Bytes,
      (append_node_indices c st raw L).2.db.Get Handle.t
          (keyBytes c (append_node_indices c st raw L).1) = (Status.ok, node) ∧
      c.n_descendants node = L.length ∧
      (List.range L.length).map (c.child node) = L := by
  obtain ⟨hlen, hcount, hchildren⟩ := indicesRecord_fields c hwf raw hraw L hne hK hL
  refine ⟨indicesRecord c raw L, ?_, hcount, hchildren⟩
  unfold append_node_indices append_node keyBytes
  simp only
  rw [Get_Put_same, List.take_of_length_le (by rw [hlen])]

/-- Claim C6 at the list `[3, 4, 7]` on a new 32-bit store with `f = 3`. -/
theorem append_node_indices_record_witness :
    ∃ node : Bytes,
      (append_node_indices (cfg32 3) (RocksDBStorage (cfg32 3) DB.empty)
          (List.replicate 24 170) [3, 4, 7]).2.db.Get Handle.t
        (keyBytes (cfg32 3) (append_node_indices (cfg32 3) (RocksDBStorage (cfg32 3) DB.empty)
          (List.replicate 24 170) [3, 4, 7]).1) = (Status.ok, node) ∧
      (cfg32 3).n_descendants node = [3, 4, 7].length ∧
      (List.range [3, 4, 7].length).map ((cfg32 3).child node) = [3, 4, 7] :=
  append_node_indices_record (cfg32 3) (by decide) (RocksDBStorage (cfg32 3) DB.empty)
    (List.replicate 24 170) (by decide) [3, 4, 7] (by decide) (by decide) (by decide)

/-! ## The root list -/

theorem bytesLt_asymm (a b : Bytes) (h : bytesLt a b = true) : bytesLt b a = false := by
  induction a generalizing b with
  | nil => cases b <;> simp [bytesLt] at h ⊢
  | cons a0 as ih =>
    cases b with
    | nil => simp [bytesLt] at h
    | cons b0 bs =>
      simp only [bytesLt, Bool.or_eq_true, Bool.and_eq_true, decide_eq_true_eq] at h
      simp only [bytesLt, Bool.or_eq_false_iff, Bool.and_eq_false_imp, decide_eq_false_iff_not,
        decide_eq_true_eq]
      rcases h with h | ⟨h1, h2⟩
      · exact ⟨by omega, fun h' => by omega⟩
      · exact ⟨by omega, fun _ => ih bs h2⟩

/-- Writing a key greater than every key present puts the entry at the end. -/
theorem ksPut_append_of_gt (ks : Keyspace) (k v : Bytes)
    (h : ∀ e ∈ ks, bytesLt e.1 k = true) : ksPut ks k v = ks ++ [(k, v)] := by
  induction ks with
  | nil => rfl
  | cons e rest ih =>
    obtain ⟨k', v'⟩ := e
    have hk : bytesLt k' k = true := h (k', v') (List.mem_cons_self _ _)
    have hne : k ≠ k' := by
      intro heq
      rw [heq, bytesLt_irrefl] at hk
      exact Bool.false_ne_true hk
    have hnlt : bytesLt k k' = false := bytesLt_asymm _ _ hk
    unfold ksPut
    rw [if_neg hne, hnlt]
    simp only [Bool.false_eq_true, if_false, List.cons_append, List.cons.injEq, true_and]
    exact ih (fun e he => h e (List.mem_cons_of_mem _ he))

theorem cf_Put_same (db : DB) (hd : Handle) (k v : Bytes) :
    (db.Put hd k v).cf hd = ksPut (db.cf hd) k v := cf_setCf_same _ _ _

/-- The root keyspace after the first `k` rounds of the loop of `set_roots`,
started on an empty root keyspace. -/
theorem set_roots_loop (c : Cfg) (hle : c.bigEndianHost = false) (r : List Nat)
    (hn : r.length ≤ c.maxS) (db : DB) (hdb : db.cf Handle.r = []) (k : Nat)
    (hk : k ≤ r.length) :
    ((List.range k).foldl
      (fun db i => db.Put Handle.r (keyBytes c (i % c.card)) (c.imageS (r.getD i 0))) db).cf
        Handle.r
      = (List.range k).map (fun i => (keyBytes c i, c.imageS (r.getD i 0))) := by
  induction k with
  | zero => simpa using hdb
  | succ k ih =>
    have hkc : k < c.card := lt_of_lt_of_le (by omega) (le_of_lt (maxS_lt_card c))
    rw [List.range_succ, List.foldl_append, List.foldl_cons, List.foldl_nil, cf_Put_same,
      ih (by omega), Nat.mod_eq_of_lt hkc, List.map_append]
    apply ksPut_append_of_gt
    intro e he
    simp only [List.mem_map, List.mem_range] at he
    obtain ⟨i, hi, rfl⟩ := he
    exact key_order_lemma c hle i k hi (by omega)

/-- What `load` yields for a root keyspace written by the loop of
`set_roots`. -/
theorem load_of_roots (c : Cfg) (r : List Nat) (hr : ∀ x ∈ r, x < c.card) (st : Storage)
    (h : st.db.cf Handle.r
      = (List.range r.length).map (fun i => (keyBytes c i, c.imageS (r.getD i 0)))) :
    load c st = (true, r) := by
  unfold load
  rw [h]
  congr 1
  apply List.ext_getElem
  · simp
  · intro i h1 h2
    simp only [List.getElem_map, List.getElem_range]
    rw [loadS_imageS, List.getD_eq_getElem _ _ h2]
    exact Nat.mod_eq_of_lt (hr _ (List.getElem_mem _))

theorem drop_of_empty (db : DB) (h : db.roots = []) : db.DropColumnFamily Handle.r = db := by
  unfold DB.DropColumnFamily DB.setCf
  simp only
  rw [← h]

/-- Claim C7. On a store whose root keyspace is empty, for every list `r` of
root ids whose length is a non-negative `S`, `set_roots(r)` followed by
`load(out)` returns true with `out = r`, same elements in the same order
(little-endian host). -/
theorem set_roots_load_roundtrip (c : Cfg) (hle : c.bigEndianHost = false) (st : Storage)
    (hempty : st.db.roots = []) (r : List Nat) (hn : r.length ≤ c.maxS)
    (hr : ∀ x ∈ r, x < c.card) :
    load c (set_roots c st r) = (true, r) := by
  apply load_of_roots c r hr
  unfold set_roots
  simp only
  rw [drop_of_empty st.db hempty]
  exact set_roots_loop c hle r hn st.db hempty r.length (le_refl _)

/-- Claim C7 at the list `[10, 20, 30]` and at a list of 300 roots, on a new
32-bit store. -/
theorem set_roots_load_roundtrip_witness :
    load (cfg32 2) (set_roots (cfg32 2) (RocksDBStorage (cfg32 2) DB.empty) [10, 20, 30])
      = (true, [10, 20, 30]) ∧
    load (cfg32 2) (set_roots (cfg32 2) (RocksDBStorage (cfg32 2) DB.empty) (List.range 300))
      = (true, List.range 300) :=
  ⟨set_roots_load_roundtrip (cfg32 2) rfl (RocksDBStorage (cfg32 2) DB.empty) rfl [10, 20, 30]
    (by decide) (by decide),
   set_roots_load_roundtrip (cfg32 2) rfl (RocksDBStorage (cfg32 2) DB.empty) rfl
    (List.range 300) (by rw [List.length_range]; decide)
    (fun x hx => lt_trans (List.mem_range.mp hx) (by decide))⟩

/-- Claim C8. `set_roots` replaces the whole root set: after `set_roots(r1)`
and then `set_roots(r2)`, `load(out)` gives exactly `r2`, whatever the lengths
of `r1` and `r2` (little-endian host; the keyspace drop empties the root
keyspace). -/
theorem set_roots_replaces (c : Cfg) (hle : c.bigEndianHost = false) (st : Storage)
    (r1 r2 : List Nat) (hn : r2.length ≤ c.maxS) (hr : ∀ x ∈ r2, x < c.card) :
    load c (set_roots c (set_roots c st r1) r2) = (true, r2) := by
  apply load_of_roots c r2 hr
  unfold set_roots
  simp only
  exact set_roots_loop c hle r2 hn _ (cf_setCf_same _ _ _) r2.length (le_refl _)

/-- Claim C8 with a shorter second list: `[10, 20, 30]` then `[7]`. -/
theorem set_roots_replaces_witness :
    load (cfg32 2)
      (set_roots (cfg32 2) (set_roots (cfg32 2) (RocksDBStorage (cfg32 2) DB.empty) [10, 20, 30])
        [7]) = (true, [7]) :=
  set_roots_replaces (cfg32 2) rfl (RocksDBStorage (cfg32 2) DB.empty) [10, 20, 30] [7]
    (by decide) (by decide)

/-! ## The item count -/

theorem bytesLt_trans (a b d : Bytes) (h1 : bytesLt a b = true) (h2 : bytesLt b d = true) :
    bytesLt a d = true := by
  induction a generalizing b d with
  | nil =>
    cases b with
    | nil => simp [bytesLt] at h1
    | cons b0 bs =>
      cases d with
      | nil => simp [bytesLt] at h2
      | cons d0 ds => simp [bytesLt]
  | cons a0 as ih =>
    cases b with
    | nil => simp [bytesLt] at h1
    | cons b0 bs =>
      cases d with
      | nil => simp [bytesLt] at h2
      | cons d0 ds =>
        simp only [bytesLt, Bool.or_eq_true, Bool.and_eq_true, decide_eq_true_eq] at h1 h2 ⊢
        rcases h1 with h1 | ⟨h1, h1'⟩ <;> rcases h2 with h2 | ⟨h2, h2'⟩
        · exact Or.inl (by omega)
        · exact Or.inl (by omega)
        · exact Or.inl (by omega)
        · exact Or.inr ⟨by omega, ih bs ds h1' h2'⟩

theorem bytesLt_total (a b : Bytes) (hne : a ≠ b) (h : bytesLt a b = false) :
    bytesLt b a = true := by
  induction a generalizing b with
  | nil =>
    cases b with
    | nil => exact absurd rfl hne
    | cons b0 bs => simp [bytesLt] at h
  | cons a0 as ih =>
    cases b with
    | nil => simp [bytesLt]
    | cons b0 bs =>
      simp only [bytesLt, Bool.or_eq_false_iff, Bool.and_eq_false_imp, decide_eq_false_iff_not,
        decide_eq_true_eq] at h
      simp only [bytesLt, Bool.or_eq_true, Bool.and_eq_true, decide_eq_true_eq]
      obtain ⟨h1, h2⟩ := h
      rcases Nat.lt_or_ge b0 a0 with hlt | hge
      · exact Or.inl hlt
      · have heq : a0 = b0 := by omega
        refine Or.inr ⟨heq.symm, ih bs ?_ (h2 heq)⟩
        intro hab
        exact hne (by rw [heq, hab])

theorem mem_ksPut (ks : Keyspace) (k v : Bytes) (e : Bytes × Bytes)
    (he : e ∈ ksPut ks k v) : e = (k, v) ∨ e ∈ ks := by
  induction ks with
  | nil =>
    simp only [ksPut, List.mem_singleton] at he
    exact Or.inl he
  | cons e0 rest ih =>
    obtain ⟨k', v'⟩ := e0
    unfold ksPut at he
    split at he
    · rcases List.mem_cons.mp he with h | h
      · exact Or.inl h
      · exact Or.inr (List.mem_cons_of_mem _ h)
    · split at he
      · rcases List.mem_cons.mp he with h | h
        · exact Or.inl h
        · exact Or.inr h
      · rcases List.mem_cons.mp he with h | h
        · exact Or.inr (h ▸ List.mem_cons_self _ _)
        · rcases ih h with h' | h'
          · exact Or.inl h'
          · exact Or.inr (List.mem_cons_of_mem _ h')

theorem ksPut_mem_self (ks : Keyspace) (k v : Bytes) : (k, v) ∈ ksPut ks k v := by
  induction ks with
  | nil => simp [ksPut]
  | cons e0 rest ih =>
    obtain ⟨k', v'⟩ := e0
    unfold ksPut
    split
    · exact List.mem_cons_self _ _
    · split
      · exact List.mem_cons_self _ _
      · exact List.mem_cons_of_mem _ ih

theorem ksPut_keeps_keys (ks : Keyspace) (k v : Bytes) (e : Bytes × Bytes) (he : e ∈ ks) :
    ∃ e2 ∈ ksPut ks k v, e2.1 = e.1 := by
  induction ks with
  | nil => simp at he
  | cons e0 rest ih =>
    obtain ⟨k', v'⟩ := e0
    unfold ksPut
    split
    · rename_i hk
      rcases List.mem_cons.mp he with h | h
      · exact ⟨(k, v), List.mem_cons_self _ _, by rw [h, hk]⟩
      · exact ⟨e, List.mem_cons_of_mem _ h, rfl⟩
    · split
      · exact ⟨e, List.mem_cons_of_mem _ he, rfl⟩
      · rcases List.mem_cons.mp he with h | h
        · exact ⟨e, h ▸ List.mem_cons_self _ _, rfl⟩
        · obtain ⟨e2, h2, h3⟩ := ih h
          exact ⟨e2, List.mem_cons_of_mem _ h2, h3⟩

theorem ksPut_sorted (ks : Keyspace) (k v : Bytes)
    (h : ks.Pairwise (fun a b => bytesLt a.1 b.1 = true)) :
    (ksPut ks k v).Pairwise (fun a b => bytesLt a.1 b.1 = true) := by
  induction ks with
  | nil => simp [ksPut]
  | cons e0 rest ih =>
    obtain ⟨k', v'⟩ := e0
    rw [List.pairwise_cons] at h
    obtain ⟨hhead, hrest⟩ := h
    unfold ksPut
    split
    · rename_i hk
      rw [List.pairwise_cons]
      exact ⟨fun e he => by rw [hk]; exact hhead e he, hrest⟩
    · split
      · rename_i hlt
        rw [List.pairwise_cons]
        refine ⟨?_, List.pairwise_cons.mpr ⟨hhead, hrest⟩⟩
        intro e he
        rcases List.mem_cons.mp he with h1 | h1
        · rw [h1]
          exact hlt
        · exact bytesLt_trans _ _ _ hlt (hhead e h1)
      · rename_i hne hnlt
        rw [List.pairwise_cons]
        refine ⟨?_, ih hrest⟩
        intro e he
        rcases mem_ksPut _ _ _ _ he with h1 | h1
        · rw [h1]
          exact bytesLt_total _ _ hne (by simpa using hnlt)
        · exact hhead e h1

theorem pairwise_getLast (ks : Keyspace) (e : Bytes × Bytes)
    (h : ks.Pairwise (fun a b => bytesLt a.1 b.1 = true)) (hl : ks.getLast? = some e) :
    ∀ x ∈ ks, x = e ∨ bytesLt x.1 e.1 = true := by
  induction ks with
  | nil => simp at hl
  | cons e0 rest ih =>
    rw [List.pairwise_cons] at h
    obtain ⟨hhead, hrest⟩ := h
    cases rest with
    | nil =>
      simp only [List.getLast?_singleton, Option.some.injEq] at hl
      intro x hx
      simp only [List.mem_singleton] at hx
      exact Or.inl (hx.trans hl)
    | cons e1 rest' =>
      rw [List.getLast?_cons_cons] at hl
      have hmem : e ∈ e1 :: rest' := List.mem_of_getLast?_eq_some hl
      intro x hx
      rcases List.mem_cons.mp hx with h1 | h1
      · exact Or.inr (by rw [h1]; exact hhead e hmem)
      · exact ih hrest hl x h1

theorem foldr_max_eq (ids : List Nat) (m : Nat) (hm : m ∈ ids) (hle : ∀ j ∈ ids, j ≤ m) :
    ids.foldr max 0 = m := by
  apply le_antisymm
  · clear hm
    induction ids with
    | nil => simp
    | cons a l ih =>
      simp only [List.foldr_cons]
      exact max_le (hle a (List.mem_cons_self _ _))
        (ih (fun j hj => hle j (List.mem_cons_of_mem _ hj)))
  · clear hle
    induction ids with
    | nil => simp at hm
    | cons a l ih =>
      simp only [List.foldr_cons]
      rcases List.mem_cons.mp hm with h | h
      · rw [h]
        exact le_max_left _ _
      · exact le_trans (ih h) (le_max_right _ _)

/-- The item count read off an item keyspace in the state `ItemsInv`. -/
theorem get_n_items_of_inv (c : Cfg) (hle : c.bigEndianHost = false) (st : Storage)
    (ids : List Nat) (hinv : ItemsInv c st.db.items ids) (hne : ids ≠ []) :
    get_n_items c st = ids.foldr max 0 + 1 := by
  obtain ⟨hsorted, hkeys, hids, hbase⟩ := hinv
  have hcard : ∀ i ∈ ids, i < c.card := fun i hi =>
    lt_of_lt_of_le (hbase i hi) (le_trans (base_le_maxS c) (le_of_lt (maxS_lt_card c)))
  obtain ⟨i0, hi0⟩ := List.exists_mem_of_ne_nil _ hne
  obtain ⟨e0, he0, _⟩ := hids i0 hi0
  have hksne : st.db.items ≠ [] := List.ne_nil_of_mem he0
  obtain ⟨e, hlast⟩ : ∃ e, st.db.items.getLast? = some e := by
    cases hq : st.db.items.getLast? with
    | none => exact absurd (List.getLast?_eq_none_iff.mp hq) hksne
    | some e => exact ⟨e, rfl⟩
  obtain ⟨m, hm, hem⟩ := hkeys e (List.mem_of_getLast?_eq_some hlast)
  have hmax : ∀ j ∈ ids, j ≤ m := by
    intro j hj
    obtain ⟨ej, hej, hejk⟩ := hids j hj
    by_contra hcon
    have hlt : bytesLt (keyBytes c m) (keyBytes c j) = true :=
      key_order_lemma c hle m j (by omega) (hcard j hj)
    rcases pairwise_getLast _ e hsorted hlast ej hej with h | h
    · rw [h, hem] at hejk
      rw [hejk, bytesLt_irrefl] at hlt
      exact Bool.false_ne_true hlt
    · rw [hejk, hem, bytesLt_asymm _ _ hlt] at h
      exact Bool.false_ne_true h
  rw [foldr_max_eq ids m hm hmax]
  have hlk : _get_last_key c st.db Handle.i = m := by
    unfold _get_last_key DB.SeekToLast DB.cf
    simp only [hlast, hem]
    exact decode_keyBytes c m (hcard m hm)
  unfold get_n_items
  rw [hlk]
  apply Nat.mod_eq_of_lt
  have h1 := hbase m hm
  have h2 := base_le_maxS c
  have h3 := maxS_lt_card c
  omega

theorem ItemsInv_congr (c : Cfg) (ks : Keyspace) (ids ids2 : List Nat)
    (h : ∀ x, x ∈ ids ↔ x ∈ ids2) (hinv : ItemsInv c ks ids) : ItemsInv c ks ids2 := by
  obtain ⟨h1, h2, h3, h4⟩ := hinv
  refine ⟨h1, ?_, ?_, ?_⟩
  · intro e he
    obtain ⟨i, hi, hk⟩ := h2 e he
    exact ⟨i, (h i).mp hi, hk⟩
  · intro i hi
    exact h3 i ((h i).mpr hi)
  · intro i hi
    exact h4 i ((h i).mpr hi)

theorem ItemsInv_put (c : Cfg) (ks : Keyspace) (ids : List Nat) (i : Nat) (v : Bytes)
    (hi : i < c.base) (hinv : ItemsInv c ks ids) :
    ItemsInv c (ksPut ks (keyBytes c i) v) (i :: ids) := by
  obtain ⟨h1, h2, h3, h4⟩ := hinv
  refine ⟨ksPut_sorted _ _ _ h1, ?_, ?_, ?_⟩
  · intro e he
    rcases mem_ksPut _ _ _ _ he with h | h
    · exact ⟨i, List.mem_cons_self _ _, by rw [h]⟩
    · obtain ⟨j, hj, hk⟩ := h2 e h
      exact ⟨j, List.mem_cons_of_mem _ hj, hk⟩
  · intro j hj
    rcases List.mem_cons.mp hj with h | h
    · exact ⟨(keyBytes c i, v), ksPut_mem_self _ _ _, by rw [h]⟩
    · obtain ⟨e, he, hk⟩ := h3 j h
      obtain ⟨e2, he2, hk2⟩ := ksPut_keeps_keys ks (keyBytes c i) v e he
      exact ⟨e2, he2, hk2.trans hk⟩
  · intro j hj
    rcases List.mem_cons.mp hj with h | h
    · rw [h]
      exact hi
    · exact h4 j h

theorem set_roots_items (c : Cfg) (st : Storage) (roots : List Nat) :
    (set_roots c st roots).db.items = st.db.items := by
  unfold set_roots
  simp only
  have hgen : ∀ (l : List Nat) (db : DB),
      (l.foldl (fun db i => db.Put Handle.r (keyBytes c (i % c.card))
        (c.imageS (roots.getD i 0))) db).items = db.items := by
    intro l
    induction l with
    | nil => intro db; rfl
    | cons a l ih =>
      intro db
      rw [List.foldl_cons, ih]
      rfl
  rw [hgen]
  rfl

/-- The item keyspace after a sequence of calls holds exactly the items the
calls stored, in key order. -/
theorem run_items_inv (c : Cfg) (hs : 0 < c.ssz) (ops : List Op) (st : Storage)
    (ids0 : List Nat) (hvalid : itemIdsValid c ops = true)
    (hinv : ItemsInv c st.db.items ids0) :
    ItemsInv c (run c st ops).2.db.items (addedItemIds c ops ++ ids0) := by
  induction ops generalizing st ids0 with
  | nil => exact hinv
  | cons op ops ih =>
    cases op with
    | add_item raw item v =>
      simp only [itemIdsValid, Bool.and_eq_true, decide_eq_true_eq] at hvalid
      obtain ⟨hitem, hrest⟩ := hvalid
      simp only [run, step, addedItemIds]
      by_cases hlt : item < c.base
      · rw [if_pos hlt]
        have hstep : (add_item c st raw item v).db.items
            = ksPut st.db.items (keyBytes c item) ((itemRecord c raw v).take c.s) := by
          unfold add_item
          rw [sge_base_false c hs item hlt]
          rfl
        have h := ih (add_item c st raw item v) (item :: ids0) hrest
          (by rw [hstep]; exact ItemsInv_put c _ _ _ _ hlt hinv)
        refine ItemsInv_congr c _ _ _ ?_ h
        intro x
        simp only [List.mem_append, List.mem_cons]
        tauto
      · rw [if_neg hlt]
        have hstep : add_item c st raw item v = st := by
          unfold add_item
          rw [sge_base_true c hs item (by omega) hitem]
          rfl
        rw [hstep]
        exact ih st ids0 hrest hinv
    | append_node node =>
      simp only [run, step, addedItemIds, itemIdsValid] at hvalid ⊢
      exact ih _ ids0 hvalid hinv
    | append_node_indices raw indices =>
      simp only [run, step, addedItemIds, itemIdsValid] at hvalid ⊢
      exact ih _ ids0 hvalid hinv
    | set_roots roots =>
      simp only [run, step, addedItemIds, itemIdsValid] at hvalid ⊢
      exact ih _ ids0 hvalid (by rw [set_roots_items]; exact hinv)

/-- Claim C9. On a little-endian host, after any sequence of calls on a new
store in which the ids handed to `add_item` are non-negative values of `S`
and at least one of them is an item id (below the midpoint), `get_n_items()`
returns the largest stored item id plus one, whatever the order of the
calls. -/
theorem get_n_items_largest_plus_one (c : Cfg) (hs : 0 < c.ssz)
    (hle : c.bigEndianHost = false) (ops : List Op) (hvalid : itemIdsValid c ops = true)
    (hne : addedItemIds c ops ≠ []) :
    get_n_items c (run c (RocksDBStorage c DB.empty) ops).2
      = (addedItemIds c ops).foldr max 0 + 1 := by
  have hinv0 : ItemsInv c (RocksDBStorage c DB.empty).db.items [] := by
    refine ⟨List.Pairwise.nil, ?_, ?_, ?_⟩ <;> intro x hx <;> simp [RocksDBStorage, DB.empty] at hx
  have hinv := run_items_inv c hs ops _ [] hvalid hinv0
  rw [List.append_nil] at hinv
  exact get_n_items_of_inv c hle _ _ hinv hne

/-- Claim C9 on a 32-bit store: items 3, 1, 0, 2 give 4; item 7 on top of
them gives 8. -/
theorem get_n_items_largest_plus_one_witness :
    get_n_items (cfg32 1) (run (cfg32 1) (RocksDBStorage (cfg32 1) DB.empty)
      [Op.add_item (List.replicate 16 0) 3 [30], Op.add_item (List.replicate 16 0) 1 [10],
       Op.add_item (List.replicate 16 0) 0 [0], Op.add_item (List.replicate 16 0) 2 [20]]).2
      = 4 ∧
    get_n_items (cfg32 1) (run (cfg32 1) (RocksDBStorage (cfg32 1) DB.empty)
      [Op.add_item (List.replicate 16 0) 3 [30], Op.add_item (List.replicate 16 0) 1 [10],
       Op.add_item (List.replicate 16 0) 0 [0], Op.add_item (List.replicate 16 0) 2 [20],
       Op.add_item (List.replicate 16 0) 7 [70]]).2
      = 8 :=
  ⟨get_n_items_largest_plus_one (cfg32 1) (by decide) rfl _ (by decide) (by decide),
   get_n_items_largest_plus_one (cfg32 1) (by decide) rfl _ (by decide) (by decide)⟩

/-! ## Lookups of ids that are not stored -/

theorem Get_of_absent (db : DB) (hd : Handle) (k : Bytes) (h : ksGet (db.cf hd) k = none) :
    db.Get hd k = (Status.notFound, []) := by
  unfold DB.Get
  rw [h]

/-- The block `ref_node` returns is copied from the string of its lookup; the
status of the lookup does not enter. -/
theorem ref_node_eq_lookup (c : Cfg) (st : Storage) (oob : Nat → Nat) (i : Nat) :
    ref_node c st oob i = cRead (ref_node_lookup c st i).2 oob c.s := rfl

/-- The components `get_item` hands out are copied from the string of its
lookup; the status of the lookup does not enter. -/
theorem get_item_eq_lookup (c : Cfg) (st : Storage) (oob : Nat → Nat) (item : Nat) :
    get_item c st oob item
      = c.vecOf (readAt (cRead (get_item_lookup c st item).2 oob (c.vo + c.f * c.tsz))
          c.vo (c.f * c.tsz)) := rfl

/-- For an id without a record in the keyspace its classification selects,
the lookup of `ref_node` ends not-found with an empty string, and the copy of
`s` bytes leaves the buffer of that string as soon as `s` exceeds one. -/
theorem ref_node_lookup_of_absent (c : Cfg) (st : Storage) (id : Nat) (hs : 1 < c.s)
    (habs : ksGet (st.db.cf (if c.sge id c.base then Handle.t else Handle.i)) (keyBytes c id)
      = none) :
    ref_node_lookup c st id = (Status.notFound, []) ∧
    copyInBounds (ref_node_lookup c st id).2 c.s = false := by
  have h : ref_node_lookup c st id = (Status.notFound, []) := by
    unfold ref_node_lookup
    simp only
    rw [show c.imageS (_swap_endian c id) = keyBytes c id from rfl, Get_of_absent _ _ _ habs]
  refine ⟨h, ?_⟩
  rw [h]
  unfold copyInBounds
  simp only [List.length_nil, Nat.zero_add, decide_eq_false_iff_not, not_le]
  exact hs

/-- Claim C10, the code at the failing input. On a new 32-bit store (`f = 3`,
records of 24 bytes) node 1073741823 and item 5 have no stored record: the
lookups of `ref_node(1073741823)` and of `get_item(5, out)` end with the
status not-found and an empty string, and the copies out of that string (24
bytes, and the 12 bytes of the vector at offset 12) leave its buffer. Once a
record is stored under the id the lookup ends ok and the copy stays inside. -/
theorem dangling_lookup_not_checked :
    ref_node_lookup (cfg32 3) (RocksDBStorage (cfg32 3) DB.empty) 1073741823
      = (Status.notFound, []) ∧
    copyInBounds (ref_node_lookup (cfg32 3) (RocksDBStorage (cfg32 3) DB.empty) 1073741823).2
      (cfg32 3).s = false ∧
    get_item_lookup (cfg32 3) (RocksDBStorage (cfg32 3) DB.empty) 5 = (Status.notFound, []) ∧
    copyInBounds (get_item_lookup (cfg32 3) (RocksDBStorage (cfg32 3) DB.empty) 5).2
      ((cfg32 3).vo + (cfg32 3).f * (cfg32 3).tsz) = false ∧
    ref_node_lookup (cfg32 3)
      (append_node (cfg32 3) (RocksDBStorage (cfg32 3) DB.empty) (List.replicate 24 7)).2
      1073741823 = (Status.ok, List.replicate 24 7) ∧
    copyInBounds (ref_node_lookup (cfg32 3)
      (append_node (cfg32 3) (RocksDBStorage (cfg32 3) DB.empty) (List.replicate 24 7)).2
      1073741823).2 (cfg32 3).s = true := by
  decide

/-! ## Item records read through `ref_node` -/

theorem readAt_take_append (a b : Bytes) (m o n : Nat) (h : o + n ≤ m) (hm : m ≤ a.length) :
    readAt (a.take m ++ b) o n = readAt a o n := by
  unfold readAt
  have hlen : (List.take m a).length = m := by simp [hm]
  rw [List.drop_append_of_le_length (by omega),
    List.take_append_of_le_length (by simp only [List.length_drop]; omega),
    List.drop_take, List.take_take, Nat.min_eq_left (by omega)]

theorem one_lt_card (c : Cfg) (hs : 0 < c.ssz) : 1 < c.card := by
  unfold Cfg.card
  calc 1 < 256 ^ 1 := by norm_num
    _ ≤ 256 ^ c.ssz := Nat.pow_le_pow_right (by norm_num) hs

/-- The header fields of the record `add_item` builds: count 1 and two zero
child slots. -/
theorem itemRecord_header_fields (c : Cfg) (hwf : c.WF) (raw : Bytes) (hraw : raw.length = c.s)
    (v : List Nat) :
    c.n_descendants (itemRecord c raw v) = 1 ∧
    c.child (itemRecord c raw v) 0 = 0 ∧
    c.child (itemRecord c raw v) 1 = 0 := by
  have hl := item_header_length c hwf raw hraw
  obtain ⟨h1, h2, h3⟩ := hwf
  have hs : c.vo ≤ c.s := Nat.le_add_right _ _
  have hcard := one_lt_card c h1
  have hz : fromImage c.bigEndianHost (c.imageS 0) = 0 := by
    unfold Cfg.imageS
    rw [fromImage_memImage]
    exact Nat.zero_mod _
  have hone : fromImage c.bigEndianHost (c.imageS 1) = 1 := by
    unfold Cfg.imageS
    rw [fromImage_memImage]
    exact Nat.mod_eq_of_lt hcard
  have l1 : (writeAt raw c.co (c.imageS 0)).length = c.s := by
    rw [writeAt_length _ _ _ (by rw [imageS_length]; omega), hraw]
  have l2 : (writeAt (writeAt raw c.co (c.imageS 0)) (c.co + c.ssz) (c.imageS 0)).length
      = c.s := by
    rw [writeAt_length _ _ _ (by rw [imageS_length]; omega), l1]
  rw [itemRecord_eq c ⟨h1, h2, h3⟩ raw hraw]
  refine ⟨?_, ?_, ?_⟩
  · unfold Cfg.n_descendants
    rw [← List.drop_zero (List.take c.vo _ ++ _), loadS_eq_readAt,
      readAt_take_append _ _ _ _ _ (by omega) (by rw [hl]; exact hs)]
    have := readAt_writeAt_same
      (writeAt (writeAt raw c.co (c.imageS 0)) (c.co + c.ssz) (c.imageS 0)) 0 (c.imageS 1)
      (Nat.zero_le _)
    rw [imageS_length] at this
    rw [this, hone]
  · unfold Cfg.child
    rw [loadS_eq_readAt, Nat.zero_mul, Nat.add_zero,
      readAt_take_append _ _ _ _ _ (by omega) (by rw [hl]; exact hs),
      readAt_writeAt_after _ _ _ _ _ (by rw [imageS_length]; omega) (Nat.zero_le _),
      readAt_writeAt_before _ _ _ _ _ (le_refl _) (by rw [l1]; omega)]
    have := readAt_writeAt_same raw c.co (c.imageS 0) (by rw [hraw]; omega)
    rw [imageS_length] at this
    rw [this, hz]
  · unfold Cfg.child
    rw [loadS_eq_readAt, Nat.one_mul,
      readAt_take_append _ _ _ _ _ (by omega) (by rw [hl]; exact hs),
      readAt_writeAt_after _ _ _ _ _ (by rw [imageS_length]; omega) (Nat.zero_le _)]
    have := readAt_writeAt_same (writeAt raw c.co (c.imageS 0)) (c.co + c.ssz) (c.imageS 0)
      (by rw [l1]; omega)
    rw [imageS_length] at this
    rw [this, hz]

/-- For an item id, `ref_node` right after `add_item` returns the record
`add_item` built. -/
theorem ref_node_add_item (c : Cfg) (hwf : c.WF) (st : Storage) (oob : Nat → Nat)
    (raw : Bytes) (hraw : raw.length = c.s) (i : Nat) (hi : i < c.base) (v : List Nat) :
    ref_node c (add_item c st raw i v) oob i = itemRecord c raw v := by
  have hl := itemRecord_length c hwf raw hraw v
  unfold ref_node add_item
  rw [sge_base_false c hwf.1 i hi]
  simp only [Bool.false_eq_true, if_false]
  rw [Get_Put_same]
  simp only
  rw [List.take_of_length_le (by rw [hl]),
    cRead_of_le_length _ _ _ (by rw [hl]), List.take_of_length_le (by rw [hl])]

/-- Claim C11. For every item id `i` below the midpoint and vector `v`, after
`add_item(i, v)` the record `ref_node(i)` returns is the one read from the
item keyspace; its descendant count is 1, its two child slots are 0 and its
vector payload is `v`. For every id from the midpoint up, `ref_node(id)`
reads the node keyspace. -/
theorem ref_node_item_record (c : Cfg) (hwf : c.WF) (st : Storage) (oob : Nat → Nat)
    (raw : Bytes) (hraw : raw.length = c.s) (i : Nat) (hi : i < c.maxS / 2)
    (v : List Nat) (hlen : v.length = c.f) (hv : ∀ x ∈ v, x < 256 ^ c.tsz)
    (st2 : Storage) (id : Nat) (hid : c.maxS / 2 ≤ id) (hid2 : id ≤ c.maxS) :
    ref_node c (add_item c st raw i v) oob i
      = cRead ((add_item c st raw i v).db.Get Handle.i (keyBytes c i)).2 oob c.s ∧
    c.n_descendants (ref_node c (add_item c st raw i v) oob i) = 1 ∧
    c.child (ref_node c (add_item c st raw i v) oob i) 0 = 0 ∧
    c.child (ref_node c (add_item c st raw i v) oob i) 1 = 0 ∧
    c.vecOf (readAt (ref_node c (add_item c st raw i v) oob i) c.vo (c.f * c.tsz)) = v ∧
    ref_node c st2 oob id = cRead (st2.db.Get Handle.t (keyBytes c id)).2 oob c.s := by
  obtain ⟨hn, hc0, hc1⟩ := itemRecord_header_fields c hwf raw hraw v
  have hclass : ∀ st' : Storage,
      ref_node c st' oob i = cRead (st'.db.Get Handle.i (keyBytes c i)).2 oob c.s := by
    intro st'
    unfold ref_node
    rw [sge_base_false c hwf.1 i hi]
    rfl
  refine ⟨hclass _, ?_, ?_, ?_, ?_, ?_⟩
  · rw [ref_node_add_item c hwf st oob raw hraw i hi v]
    exact hn
  · rw [ref_node_add_item c hwf st oob raw hraw i hi v]
    exact hc0
  · rw [ref_node_add_item c hwf st oob raw hraw i hi v]
    exact hc1
  · rw [ref_node_add_item c hwf st oob raw hraw i hi v]
    exact vecOf_itemRecord c hwf raw hraw v hlen hv
  · unfold ref_node
    rw [sge_base_true c hwf.1 id hid hid2]
    rfl

/-- Claim C11 at item 5 and node id 1073741823 of a 32-bit store, `f = 3`. -/
theorem ref_node_item_record_witness :
    ref_node (cfg32 3) (add_item (cfg32 3) (RocksDBStorage (cfg32 3) DB.empty)
        (List.replicate 24 170) 5 [1065353216, 3221225472, 7]) (fun _ => 0) 5
      = cRead ((add_item (cfg32 3) (RocksDBStorage (cfg32 3) DB.empty)
        (List.replicate 24 170) 5 [1065353216, 3221225472, 7]).db.Get Handle.i
          (keyBytes (cfg32 3) 5)).2 (fun _ => 0) (cfg32 3).s ∧
    (cfg32 3).n_descendants (ref_node (cfg32 3) (add_item (cfg32 3)
        (RocksDBStorage (cfg32 3) DB.empty) (List.replicate 24 170) 5
        [1065353216, 3221225472, 7]) (fun _ => 0) 5) = 1 ∧
    (cfg32 3).child (ref_node (cfg32 3) (add_item (cfg32 3)
        (RocksDBStorage (cfg32 3) DB.empty) (List.replicate 24 170) 5
        [1065353216, 3221225472, 7]) (fun _ => 0) 5) 0 = 0 ∧
    (cfg32 3).child (ref_node (cfg32 3) (add_item (cfg32 3)
        (RocksDBStorage (cfg32 3) DB.empty) (List.replicate 24 170) 5
        [1065353216, 3221225472, 7]) (fun _ => 0) 5) 1 = 0 ∧
    (cfg32 3).vecOf (readAt (ref_node (cfg32 3) (add_item (cfg32 3)
        (RocksDBStorage (cfg32 3) DB.empty) (List.replicate 24 170) 5
        [1065353216, 3221225472, 7]) (fun _ => 0) 5) (cfg32 3).vo
        ((cfg32 3).f * (cfg32 3).tsz)) = [1065353216, 3221225472, 7] ∧
    ref_node (cfg32 3) (RocksDBStorage (cfg32 3) DB.empty) (fun _ => 0) 1073741823
      = cRead ((RocksDBStorage (cfg32 3) DB.empty).db.Get Handle.t
          (keyBytes (cfg32 3) 1073741823)).2 (fun _ => 0) (cfg32 3).s :=
  ref_node_item_record (cfg32 3) (by decide) (RocksDBStorage (cfg32 3) DB.empty) (fun _ => 0)
    (List.replicate 24 170) (by decide) 5 (by decide) [1065353216, 3221225472, 7] (by decide)
    (by decide) (RocksDBStorage (cfg32 3) DB.empty) 1073741823 (by decide) (by decide)

/-! ## The item id invariant -/

theorem slt_of_sge_false (c : Cfg) (a b : Nat) (h : c.sge a b = false) : c.slt a b = true := by
  unfold Cfg.sge at h
  unfold Cfg.slt
  simp only [decide_eq_false_iff_not, not_le] at h
  simpa using h

/-- A call of `add_item` that the guard rejects changes nothing. -/
theorem add_item_rejected (c : Cfg) (hs : 0 < c.ssz) (st : Storage) (raw : Bytes) (id : Nat)
    (v : List Nat) (hid : c.base ≤ id) (hid2 : id ≤ c.maxS) : add_item c st raw id v = st := by
  unfold add_item
  rw [sge_base_true c hs id hid hid2]
  rfl

theorem add_item_items_below (c : Cfg) (st : Storage) (raw : Bytes) (i : Nat) (v : List Nat)
    (hi : i < c.card) (h : ItemKeysBelow c st.db.items) :
    ItemKeysBelow c (add_item c st raw i v).db.items := by
  unfold add_item
  cases hg : c.sge i c.base with
  | true => simpa using h
  | false =>
    simp only [Bool.false_eq_true, if_false]
    intro e he
    rcases mem_ksPut _ _ _ _ he with h1 | h1
    · rw [h1]
      simp only
      rw [show c.imageS (_swap_endian c i) = keyBytes c i from rfl, decode_keyBytes c i hi]
      exact slt_of_sge_false c _ _ hg
    · exact h e h1

theorem run_items_below (c : Cfg) (ops : List Op) (st : Storage)
    (htyped : itemIdsTyped c ops = true) (h : ItemKeysBelow c st.db.items) :
    ItemKeysBelow c (run c st ops).2.db.items := by
  induction ops generalizing st with
  | nil => exact h
  | cons op ops ih =>
    cases op with
    | add_item raw item v =>
      simp only [itemIdsTyped, Bool.and_eq_true, decide_eq_true_eq] at htyped
      simp only [run, step]
      exact ih _ htyped.2 (add_item_items_below c st raw item v htyped.1 h)
    | append_node node =>
      simp only [run, step, itemIdsTyped] at htyped ⊢
      exact ih _ htyped h
    | append_node_indices raw indices =>
      simp only [run, step, itemIdsTyped] at htyped ⊢
      exact ih _ htyped h
    | set_roots roots =>
      simp only [run, step, itemIdsTyped] at htyped ⊢
      exact ih _ htyped (by rw [set_roots_items]; exact h)

theorem runSessions_items_below (c : Cfg) (sessions : List (List Op)) (db : DB)
    (htyped : ∀ ops ∈ sessions, itemIdsTyped c ops = true) (h : ItemKeysBelow c db.items) :
    ItemKeysBelow c (runSessions c db sessions).items := by
  induction sessions generalizing db with
  | nil => exact h
  | cons ops rest ih =>
    simp only [runSessions]
    apply ih
    · exact fun o ho => htyped o (List.mem_cons_of_mem _ ho)
    · exact run_items_below c ops _ (htyped ops (List.mem_cons_self _ _)) h

/-- Claim C12. A call `add_item(id, v)` with `id` from the midpoint up writes
nothing: the state (every keyspace and the node counter) is as before. And in
every state reached from an empty store by sessions of calls, every key of
the item keyspace decodes to an id below the midpoint (as values of `S`). -/
theorem item_ids_below_midpoint (c : Cfg) (hs : 0 < c.ssz) (st : Storage) (raw : Bytes)
    (id : Nat) (v : List Nat) (hid : c.maxS / 2 ≤ id) (hid2 : id ≤ c.maxS)
    (sessions : List (List Op)) (ops : List Op)
    (htyped : ∀ o ∈ ops :: sessions, itemIdsTyped c o = true) :
    add_item c st raw id v = st ∧
    ∀ e ∈ (run c (RocksDBStorage c (runSessions c DB.empty sessions)) ops).2.db.items,
      c.toInt (_swap_endian c (c.loadS e.1)) < c.toInt (c.maxS / 2) := by
  refine ⟨add_item_rejected c hs st raw id v hid hid2, ?_⟩
  have h0 : ItemKeysBelow c DB.empty.items := by
    intro e he
    simp [DB.empty] at he
  have h1 := runSessions_items_below c sessions DB.empty
    (fun o ho => htyped o (List.mem_cons_of_mem _ ho)) h0
  have h2 := run_items_below c ops (RocksDBStorage c (runSessions c DB.empty sessions))
    (htyped ops (List.mem_cons_self _ _)) h1
  intro e he
  have := h2 e he
  unfold Cfg.slt at this
  simpa using this

/-- Claim C12 on a 32-bit store: the midpoint itself is rejected, and the
items of two sessions, one of them with the id `-1`, stay below it. -/
theorem item_ids_below_midpoint_witness :
    add_item (cfg32 1) (RocksDBStorage (cfg32 1) DB.empty) (List.replicate 16 0) 1073741823 [9]
      = RocksDBStorage (cfg32 1) DB.empty ∧
    ∀ e ∈ (run (cfg32 1) (RocksDBStorage (cfg32 1) (runSessions (cfg32 1) DB.empty
        [[Op.add_item (List.replicate 16 0) 5 [1], Op.add_item (List.replicate 16 0) 1073741823 [2],
          Op.append_node (List.replicate 16 3)],
         [Op.add_item (List.replicate 16 0) 4294967295 [4]]]))
        [Op.add_item (List.replicate 16 0) 7 [5]]).2.db.items,
      (cfg32 1).toInt (_swap_endian (cfg32 1) ((cfg32 1).loadS e.1))
        < (cfg32 1).toInt ((cfg32 1).maxS / 2) :=
  item_ids_below_midpoint (cfg32 1) (by decide) (RocksDBStorage (cfg32 1) DB.empty)
    (List.replicate 16 0) 1073741823 [9] (by decide) (by decide) _ _ (by decide)

/-! ## Node records stay as written -/

theorem keyBytes_injective (c : Cfg) (a b : Nat) (ha : a < c.card) (hb : b < c.card)
    (h : keyBytes c a = keyBytes c b) : a = b := by
  have h2 := congrArg (fun k => _swap_endian c (c.loadS k)) h
  simp only at h2
  rwa [decode_keyBytes c a ha, decode_keyBytes c b hb] at h2

theorem set_roots_tree (c : Cfg) (st : Storage) (roots : List Nat) :
    (set_roots c st roots).db.tree = st.db.tree := by
  unfold set_roots
  simp only
  have hgen : ∀ (l : List Nat) (db : DB),
      (l.foldl (fun db i => db.Put Handle.r (keyBytes c (i % c.card))
        (c.imageS (roots.getD i 0))) db).tree = db.tree := by
    intro l
    induction l with
    | nil => intro db; rfl
    | cons a l ih =>
      intro db
      rw [List.foldl_cons, ih]
      rfl
  rw [hgen]
  rfl

theorem Get_tree_congr (db1 db2 : DB) (k : Bytes) (h : db1.tree = db2.tree) :
    db1.Get Handle.t k = db2.Get Handle.t k := by
  unfold DB.Get DB.cf
  simp only [h]

theorem add_item_Get_tree (c : Cfg) (st : Storage) (raw : Bytes) (i : Nat) (v : List Nat)
    (k : Bytes) : (add_item c st raw i v).db.Get Handle.t k = st.db.Get Handle.t k := by
  unfold add_item
  split
  · rfl
  · exact Get_Put_other_cf _ Handle.i Handle.t _ _ _ (by decide)

theorem counter_ne_of_room (card t j : Nat) (ht : t < card) (hj : j + 1 < card) :
    (t + 1 + j) % card ≠ t := by
  intro h
  rcases Nat.lt_or_ge (t + 1 + j) card with hlt | hge
  · rw [Nat.mod_eq_of_lt hlt] at h
    omega
  · rw [Nat.mod_eq_sub_mod hge, Nat.mod_eq_of_lt (by omega)] at h
    omega

/-- A record stored under the node id `t` is still there after a sequence of
calls, when the counter started `j` steps after `t` and does not come round to
`t` again. -/
theorem run_keeps_node (c : Cfg) (t : Nat) (ht : t < c.card) (node : Bytes) (ops : List Op)
    (st : Storage) (j : Nat) (hj : st.atomic_tree_node_id = (t + 1 + j) % c.card)
    (hroom : j + countAppends ops < c.card)
    (hget : st.db.Get Handle.t (keyBytes c t) = (Status.ok, node)) :
    (run c st ops).2.db.Get Handle.t (keyBytes c t) = (Status.ok, node) := by
  induction ops generalizing st j with
  | nil => exact hget
  | cons op ops ih =>
    have happ : ∀ m : Bytes, j + (countAppends ops + 1) < c.card →
        (run c (append_node c st m).2 ops).2.db.Get Handle.t (keyBytes c t)
          = (Status.ok, node) := by
      intro m hr
      apply ih (append_node c st m).2 (j + 1)
      · show (st.atomic_tree_node_id + 1) % c.card = (t + 1 + (j + 1)) % c.card
        rw [hj, Nat.mod_add_mod]
        rfl
      · omega
      · show (st.db.Put Handle.t (keyBytes c st.atomic_tree_node_id) (m.take c.s)).Get Handle.t
          (keyBytes c t) = (Status.ok, node)
        rw [Get_Put_other_key _ _ _ _ _ ?_, hget]
        intro heq
        have hlt : st.atomic_tree_node_id < c.card := by
          rw [hj]
          exact Nat.mod_lt _ (card_pos c)
        have := keyBytes_injective c _ _ ht hlt heq
        rw [hj] at this
        exact counter_ne_of_room c.card t j ht (by omega) this.symm
    cases op with
    | add_item raw item v =>
      simp only [run, step, countAppends] at hroom ⊢
      exact ih _ j (by rw [add_item_counter]; exact hj) hroom
        (by rw [add_item_Get_tree]; exact hget)
    | set_roots roots =>
      simp only [run, step, countAppends] at hroom ⊢
      exact ih _ j (by rw [set_roots_counter]; exact hj) hroom
        (by rw [Get_tree_congr _ _ _ (set_roots_tree c st roots)]; exact hget)
    | append_node m =>
      simp only [run, step, countAppends] at hroom ⊢
      exact happ m hroom
    | append_node_indices raw indices =>
      simp only [run, step, countAppends] at hroom ⊢
      exact happ _ hroom

/-- Inside one session a node record stays as written: once `append_node`
has returned the id `t` for the record `n` (in a state whose counter is a node
id), `ref_node(t)` returns `n` after every later sequence of calls of the same
session that makes fewer than `256 ^ sizeof(S)` appends. -/
theorem node_record_kept_in_session (c : Cfg) (hs : 0 < c.ssz) (st : Storage) (oob : Nat → Nat)
    (n : Bytes) (hn : n.length = c.s)
    (hlo : c.maxS / 2 ≤ st.atomic_tree_node_id) (hhi : st.atomic_tree_node_id ≤ c.maxS)
    (ops : List Op) (hops : countAppends ops < c.card) :
    ref_node c (run c (append_node c st n).2 ops).2 oob (append_node c st n).1 = n := by
  have ht : st.atomic_tree_node_id < c.card := lt_of_le_of_lt hhi (maxS_lt_card c)
  have hkeep := run_keeps_node c st.atomic_tree_node_id ht (n.take c.s) ops
    (append_node c st n).2 0 rfl (by omega)
    (show (st.db.Put Handle.t (keyBytes c st.atomic_tree_node_id) (n.take c.s)).Get Handle.t
      (keyBytes c st.atomic_tree_node_id) = (Status.ok, n.take c.s) from Get_Put_same _ _ _ _)
  unfold ref_node
  simp only
  rw [show (append_node c st n).1 = st.atomic_tree_node_id from rfl,
    sge_base_true c hs _ hlo hhi]
  simp only [if_true]
  rw [show c.imageS (_swap_endian c st.atomic_tree_node_id)
    = keyBytes c st.atomic_tree_node_id from rfl, hkeep]
  simp only
  rw [List.take_of_length_le (by rw [hn]),
    cRead_of_le_length _ _ _ (by rw [hn]), List.take_of_length_le (by rw [hn])]

/-- Claim C13, the code at the failing input. On a new 32-bit store
`append_node` returns `t = 1073741823` for a record of ones and `ref_node(t)`
gives that record. After the store is closed and opened again, the calls
`add_item`, `append_node` (a record of twos) and `set_roots` follow: the
append returns `t` again and `ref_node(t)` now gives the record of twos. -/
theorem node_record_replaced_after_reopen :
    (run (cfg32 2) (RocksDBStorage (cfg32 2) DB.empty)
      [Op.append_node (List.replicate 20 1)]).1 = [1073741823] ∧
    ref_node (cfg32 2)
      (run (cfg32 2) (RocksDBStorage (cfg32 2) DB.empty)
        [Op.append_node (List.replicate 20 1)]).2 (fun _ => 0) 1073741823
      = List.replicate 20 1 ∧
    (run (cfg32 2)
      (RocksDBStorage (cfg32 2)
        (runSessions (cfg32 2) DB.empty [[Op.append_node (List.replicate 20 1)]]))
      [Op.add_item (List.replicate 20 0) 5 [1, 2], Op.append_node (List.replicate 20 2),
       Op.set_roots [1073741823]]).1 = [1073741823] ∧
    ref_node (cfg32 2)
      (run (cfg32 2)
        (RocksDBStorage (cfg32 2)
          (runSessions (cfg32 2) DB.empty [[Op.append_node (List.replicate 20 1)]]))
        [Op.add_item (List.replicate 20 0) 5 [1, 2], Op.append_node (List.replicate 20 2),
         Op.set_roots [1073741823]]).2 (fun _ => 0) 1073741823
      = List.replicate 20 2 := by
  decide

/-! ## Fan-out -/

/-- Claim C14. For every dimensionality `f`, the record size is
`s = offsetof(Node, v) + f * sizeof(T)` and, when the quotient is a
non-negative value of `S`, `max_descendants()` returns
`(s - offsetof(Node, children)) / sizeof(S)`. -/
theorem max_descendants_formula (c : Cfg) (hfit : (c.s - c.co) / c.ssz ≤ c.maxS) :
    c.s = c.vo + c.f * c.tsz ∧
    max_descendants c = (c.vo + c.f * c.tsz - c.co) / c.ssz := by
  refine ⟨rfl, ?_⟩
  unfold max_descendants Cfg.K
  rw [Nat.mod_eq_of_lt (lt_of_le_of_lt hfit (maxS_lt_card c))]
  rfl

/-- Claim C14 at `f = 40`, 4-byte ids, 4-byte floats, children at offset 4 and
the vector at offset 12: `s = 172` and `K = 42`. -/
theorem max_descendants_formula_witness :
    (cfg32 40).s = 172 ∧ max_descendants (cfg32 40) = 42 :=
  max_descendants_formula (cfg32 40) (by decide)

/-! ## Key decoding -/

theorem get_last_key_of_last (c : Cfg) (db : DB) (hd : Handle) (kv : Bytes × Bytes) (u : Nat)
    (hu : u < c.card) (hlast : db.SeekToLast hd = some kv) (hkey : kv.1 = keyBytes c u) :
    _get_last_key c db hd = u := by
  unfold _get_last_key
  simp only [hlast, hkey]
  exact decode_keyBytes c u hu

/-- Claim C15. For every value `u` of the id type, at every width and on
either host byte order, `_swap_endian(_swap_endian(u)) = u`; the id
`_get_last_key` recovers from a key written for `u` is `u`; and a different id
has a different key. -/
theorem swap_endian_involution (c : Cfg) (u : Nat) (hu : u < c.card) :
    _swap_endian c (_swap_endian c u) = u ∧
    _swap_endian c (c.loadS (keyBytes c u)) = u ∧
    (∀ (db : DB) (hd : Handle) (kv : Bytes × Bytes), db.SeekToLast hd = some kv →
      kv.1 = keyBytes c u → _get_last_key c db hd = u) ∧
    (∀ u2 : Nat, u2 < c.card → u2 ≠ u → keyBytes c u2 ≠ keyBytes c u) := by
  refine ⟨?_, decode_keyBytes c u hu, ?_, ?_⟩
  · rw [swap_endian_swap_endian, Nat.mod_eq_of_lt hu]
  · intro db hd kv hlast hkey
    exact get_last_key_of_last c db hd kv u hu hlast hkey
  · intro u2 hu2 hne heq
    exact hne (keyBytes_injective c u2 u hu2 hu heq)

/-- Claim C15 at the id 305419896 of a 32-bit store. -/
theorem swap_endian_involution_witness :
    _swap_endian (cfg32 2) (_swap_endian (cfg32 2) 305419896) = 305419896 ∧
    _swap_endian (cfg32 2) ((cfg32 2).loadS (keyBytes (cfg32 2) 305419896)) = 305419896 ∧
    (∀ (db : DB) (hd : Handle) (kv : Bytes × Bytes), db.SeekToLast hd = some kv →
      kv.1 = keyBytes (cfg32 2) 305419896 → _get_last_key (cfg32 2) db hd = 305419896) ∧
    (∀ u2 : Nat, u2 < (cfg32 2).card → u2 ≠ 305419896 →
      keyBytes (cfg32 2) u2 ≠ keyBytes (cfg32 2) 305419896) :=
  swap_endian_involution (cfg32 2) 305419896 (by decide)

/-! ## The node count -/

theorem run_counter (c : Cfg) (ops : List Op) (st : Storage)
    (h : st.atomic_tree_node_id < c.card) :
    (run c st ops).2.atomic_tree_node_id
      = (st.atomic_tree_node_id + countAppends ops) % c.card := by
  induction ops generalizing st with
  | nil => exact (Nat.mod_eq_of_lt h).symm
  | cons op ops ih =>
    have happ : ∀ st' : Storage,
        st'.atomic_tree_node_id = (st.atomic_tree_node_id + 1) % c.card →
        (run c st' ops).2.atomic_tree_node_id
          = (st.atomic_tree_node_id + (countAppends ops + 1)) % c.card := by
      intro st' hst'
      rw [ih st' (by rw [hst']; exact Nat.mod_lt _ (card_pos c)), hst', Nat.mod_add_mod]
      congr 1
      omega
    cases op with
    | add_item raw item v =>
      simp only [run, step, countAppends]
      rw [ih _ (by rw [add_item_counter]; exact h), add_item_counter]
    | set_roots roots =>
      simp only [run, step, countAppends]
      rw [ih _ (by rw [set_roots_counter]; exact h), set_roots_counter]
    | append_node node =>
      simp only [run, step, countAppends]
      exact happ _ rfl
    | append_node_indices raw indices =>
      simp only [run, step, countAppends]
      exact happ _ rfl

theorem mod_cases (a C : Nat) (h : a < 3 * C) :
    (a < C ∧ a % C = a) ∨ (C ≤ a ∧ a < 2 * C ∧ a % C = a - C) ∨
      (2 * C ≤ a ∧ a % C = a - 2 * C) := by
  rcases Nat.lt_or_ge a C with h1 | h1
  · exact Or.inl ⟨h1, Nat.mod_eq_of_lt h1⟩
  · rcases Nat.lt_or_ge a (2 * C) with h2 | h2
    · refine Or.inr (Or.inl ⟨h1, h2, ?_⟩)
      rw [Nat.mod_eq_sub_mod h1, Nat.mod_eq_of_lt (by omega)]
    · refine Or.inr (Or.inr ⟨h2, ?_⟩)
      rw [Nat.mod_eq_sub_mod h1, Nat.mod_eq_sub_mod (by omega), Nat.mod_eq_of_lt (by omega)]
      omega

theorem new_store_counter (c : Cfg) (hs : 0 < c.ssz) :
    (RocksDBStorage c DB.empty).atomic_tree_node_id = c.base := by
  unfold RocksDBStorage Cfg.smax Cfg.slt
  simp only
  rw [if_neg]
  rw [decide_eq_true_eq, toInt_of_le_maxS c hs _ (base_le_maxS c)]
  have h0 : _get_last_key c DB.empty Handle.t = 0 := rfl
  rw [h0, toInt_of_le_maxS c hs 0 (Nat.zero_le _)]
  omega

/-- The difference `get_n_nodes() - get_n_items()`, taken in `S`, when the
counter is `m` steps past the midpoint. -/
theorem node_count_difference (c : Cfg) (st : Storage) (m : Nat) (hm : m < c.card)
    (hctr : st.atomic_tree_node_id = (c.base + m) % c.card) :
    (get_n_nodes c st + c.card - get_n_items c st) % c.card = m := by
  have hC := card_pos c
  have hb : c.base < c.card := lt_of_le_of_lt (base_le_maxS c) (maxS_lt_card c)
  have hni : get_n_items c st < c.card := Nat.mod_lt _ hC
  unfold get_n_nodes
  rw [hctr]
  generalize get_n_items c st = ni at hni
  generalize c.base = b at hb
  generalize c.card = C at hC hb hni hm
  have hX := mod_cases (b + m) C (by omega)
  have hXlt : (b + m) % C < C := Nat.mod_lt _ hC
  generalize (b + m) % C = X at hX hXlt
  have hG := mod_cases (ni + X + C - b) C (by omega)
  have hGlt : (ni + X + C - b) % C < C := Nat.mod_lt _ hC
  generalize (ni + X + C - b) % C = G at hG hGlt
  have hF := mod_cases (G + C - ni) C (by omega)
  generalize (G + C - ni) % C = F at hF
  omega

/-- Claim C16. Without overflow `get_n_nodes()` is `get_n_items()` plus the
counter minus the midpoint; and in a session on a new empty store, after any
sequence of calls with `m` appends (`m` a non-negative value of `S`), the
difference `get_n_nodes() - get_n_items()` taken in `S` is `m`. -/
theorem get_n_nodes_counts_appends (c : Cfg) (hs : 0 < c.ssz) (st : Storage)
    (hlo : c.maxS / 2 ≤ st.atomic_tree_node_id)
    (hfit : get_n_items c st + (st.atomic_tree_node_id - c.maxS / 2) < c.card)
    (ops : List Op) (hm : countAppends ops ≤ c.maxS) :
    get_n_nodes c st = get_n_items c st + (st.atomic_tree_node_id - c.maxS / 2) ∧
    (get_n_nodes c (run c (RocksDBStorage c DB.empty) ops).2 + c.card
      - get_n_items c (run c (RocksDBStorage c DB.empty) ops).2) % c.card
      = countAppends ops := by
  constructor
  · unfold get_n_nodes
    have hb : c.base = c.maxS / 2 := rfl
    rw [hb, show get_n_items c st + st.atomic_tree_node_id + c.card - c.maxS / 2
      = get_n_items c st + (st.atomic_tree_node_id - c.maxS / 2) + c.card from by omega,
      Nat.add_mod_right, Nat.mod_eq_of_lt hfit]
  · apply node_count_difference c _ _ (lt_of_le_of_lt hm (maxS_lt_card c))
    have hb : c.base < c.card := lt_of_le_of_lt (base_le_maxS c) (maxS_lt_card c)
    rw [run_counter c ops _ (by rw [new_store_counter c hs]; exact hb), new_store_counter c hs]

/-- Claim C16 on a 32-bit store: after three appends among other calls the
node count is three more than the item count. -/
theorem get_n_nodes_counts_appends_witness :
    get_n_nodes (cfg32 1) (run (cfg32 1) (RocksDBStorage (cfg32 1) DB.empty)
        [Op.add_item (List.replicate 16 0) 0 [1], Op.append_node (List.replicate 16 1)]).2
      = get_n_items (cfg32 1) (run (cfg32 1) (RocksDBStorage (cfg32 1) DB.empty)
          [Op.add_item (List.replicate 16 0) 0 [1], Op.append_node (List.replicate 16 1)]).2
        + ((run (cfg32 1) (RocksDBStorage (cfg32 1) DB.empty)
          [Op.add_item (List.replicate 16 0) 0 [1],
           Op.append_node (List.replicate 16 1)]).2.atomic_tree_node_id - (cfg32 1).maxS / 2) ∧
    (get_n_nodes (cfg32 1) (run (cfg32 1) (RocksDBStorage (cfg32 1) DB.empty)
        [Op.append_node (List.replicate 16 1), Op.add_item (List.replicate 16 0) 4 [1],
         Op.append_node_indices (List.replicate 16 0) [3, 4, 7],
         Op.set_roots [1073741824], Op.append_node (List.replicate 16 2)]).2 + (cfg32 1).card
      - get_n_items (cfg32 1) (run (cfg32 1) (RocksDBStorage (cfg32 1) DB.empty)
        [Op.append_node (List.replicate 16 1), Op.add_item (List.replicate 16 0) 4 [1],
         Op.append_node_indices (List.replicate 16 0) [3, 4, 7],
         Op.set_roots [1073741824], Op.append_node (List.replicate 16 2)]).2) % (cfg32 1).card
      = countAppends
        [Op.append_node (List.replicate 16 1), Op.add_item (List.replicate 16 0) 4 [1],
         Op.append_node_indices (List.replicate 16 0) [3, 4, 7],
         Op.set_roots [1073741824], Op.append_node (List.replicate 16 2)] :=
  get_n_nodes_counts_appends (cfg32 1) (by decide) _ (by decide) (by decide) _ (by decide)

/-! ## The read-only storage -/

/-- Claim C17. On the read-only storage `FileStorage::Storage`, `add_item`
leaves the object as it was for every id and vector (`get_n_items` and every
`get_item` result are unchanged) and only hands a message to `showUpdate`;
its `is_mutable()` is false, the one of the RocksDB engine is true. -/
theorem file_storage_add_item_no_mutation {σ : Type} (B : AnnoyIndexBase σ) (st : σ)
    (item : Nat) (v : List Nat) :
    (FileStorage.add_item st item v).1 = st ∧
    FileStorage.get_n_items B (FileStorage.add_item st item v).1
      = FileStorage.get_n_items B st ∧
    (∀ j : Nat, FileStorage.get_item B (FileStorage.add_item st item v).1 j
      = FileStorage.get_item B st j) ∧
    (FileStorage.add_item st item v).2.length = 1 ∧
    FileStorage.is_mutable = false ∧
    is_mutable = true :=
  ⟨rfl, rfl, fun _ => rfl, rfl, rfl, rfl⟩

/-! ## Byte order of the key -/

theorem toBytesLE_getD (w u j : Nat) (hj : j < w) :
    (toBytesLE w u).getD j 0 = (u / 256 ^ j) % 256 := by
  induction w generalizing u j with
  | zero => omega
  | succ w ih =>
    cases j with
    | zero => simp [toBytesLE]
    | succ j =>
      simp only [toBytesLE, List.getD_cons_succ]
      rw [ih (u / 256) j (by omega), Nat.div_div_eq_div_mul, pow_succ, mul_comm]

theorem reverse_getD (l : Bytes) (k : Nat) (hk : k < l.length) :
    l.reverse.getD k 0 = l.getD (l.length - 1 - k) 0 := by
  rw [List.getD_eq_getElem _ _ (by simpa using hk), List.getD_eq_getElem _ _ (by omega),
    List.getElem_reverse]

/-- Claim C19, the code on a big-endian host. The key written for the id 1 by
a 32-bit store starts with the byte 1, the least significant byte of the id,
while its most significant byte is 0: the claim fails there. -/
theorem key_not_big_endian_on_big_endian_host :
    ¬ ∀ (c : Cfg) (u k : Nat), u < c.card → k < c.ssz →
      (keyBytes c u).getD k 0 = msByte c.ssz u k := by
  intro h
  have := h (cfg32be 2) 1 0 (by decide) (by decide)
  revert this
  decide

/-- Claim C19 as amended. On a little-endian host, for every id `u` and every
width, byte `k` of the key written to the store is the `k`-th most
significant byte of `u`. -/
theorem key_big_endian_on_little_endian_host (c : Cfg) (hle : c.bigEndianHost = false)
    (u k : Nat) (hk : k < c.ssz) :
    (keyBytes c u).getD k 0 = msByte c.ssz u k := by
  rw [keyBytes_le_host c hle, reverse_getD _ _ (by rw [toBytesLE_length]; exact hk),
    toBytesLE_length, toBytesLE_getD _ _ _ (by omega)]
  rfl

/-- Claim C19 as amended, at the id 305419896 = 0x12345678 of a 32-bit store:
the key is 0x12, 0x34, 0x56, 0x78. -/
theorem key_big_endian_on_little_endian_host_witness :
    (keyBytes (cfg32 2) 305419896).getD 0 0 = msByte (cfg32 2).ssz 305419896 0 ∧
    (keyBytes (cfg32 2) 305419896).getD 3 0 = msByte (cfg32 2).ssz 305419896 3 :=
  ⟨key_big_endian_on_little_endian_host (cfg32 2) rfl 305419896 0 (by decide),
   key_big_endian_on_little_endian_host (cfg32 2) rfl 305419896 3 (by decide)⟩

/-! ## Counts of a new store -/

/-- On every new store `get_n_items()` is 1: the last key of the empty item
keyspace defaults to 0 and one is added to it. -/
theorem get_n_items_new_store (c : Cfg) (hs : 0 < c.ssz) :
    get_n_items c (RocksDBStorage c DB.empty) = 1 := by
  unfold get_n_items
  have h0 : _get_last_key c (RocksDBStorage c DB.empty).db Handle.i = 0 := rfl
  rw [h0]
  exact Nat.mod_eq_of_lt (one_lt_card c hs)

/-- Claim C20, the code at the failing input. On a new 32-bit store to which
nothing has been added, `get_n_items()` returns 1 and `get_n_nodes()` returns
1; after item 0 is added `get_n_items()` is 1 as well. -/
theorem new_store_counts_one :
    get_n_items (cfg32 2) (RocksDBStorage (cfg32 2) DB.empty) = 1 ∧
    get_n_nodes (cfg32 2) (RocksDBStorage (cfg32 2) DB.empty) = 1 ∧
    get_n_items (cfg32 2)
      (add_item (cfg32 2) (RocksDBStorage (cfg32 2) DB.empty) (List.replicate 20 0) 0 [1, 2])
      = 1 := by
  decide

end Annoy
